import Mathlib

/-!
Verification of the mgit-push core (multi-platform git push orchestrator).

Strings are modelled as `List Char`.  The JavaScript source keeps all of its
interesting state in plain objects and arrays; we embed the pure logic of
`src/lib/index.js` and the variants in `src/unnamed/part_000` directly:

* the platform registry `PLATFORMS` with its URL-recognition regexes and
  URL templates,
* `parseRepoInfo` (URL classification),
* `analyzeRepo` (remote discovery; the repository ships two divergent
  versions, both embedded),
* the configuration-building part of `initConfig`,
* `setupRemotes` (remote reconciliation),
* the push loop of `pushToAll` and its success/failure report,
* `updateGitignore`.

External effects (execSync, spawn, fs) are modelled by explicit state
(`GitState`, the list of git remote bindings) plus outcome oracles that decide
whether a given external command succeeds or fails with a diagnostic.
-/

namespace MGit

/-- `leadsWith pat s` : does `s` start with the literal character list `pat`?
Used to model JavaScript's `String.prototype.includes` / literal search. -/
def leadsWith : List Char → List Char → Bool
  | [], _ => true
  | _ :: _, [] => false
  | a :: as, b :: bs => a == b && leadsWith as bs

/-- `occursIn pat s` : does the literal `pat` occur anywhere in `s`?
Models JavaScript's `content.includes(pat)`. -/
def occursIn (pat : List Char) : List Char → Bool
  | [] => leadsWith pat []
  | c :: rest => leadsWith pat (c :: rest) || occursIn pat rest

/-- Model of JavaScript `s.replace(pat, rep)` with a *string* pattern:
replaces the first (leftmost) occurrence of `pat` by `rep`, returns `s`
unchanged when `pat` does not occur.  JavaScript's `$`-substitution in the
replacement string is not modelled; every theorem that goes through
`replaceFirst` with a non-literal replacement restricts itself to
`$`-free replacements, where JavaScript behaves literally. -/
def replaceFirst (pat rep : List Char) : List Char → List Char
  | [] => if leadsWith pat [] then rep else []
  | c :: t =>
      if leadsWith pat (c :: t) then rep ++ (c :: t).drop pat.length
      else c :: replaceFirst pat rep t

/-- Case-insensitive literal prefix match, returning the remainder of the
string after the pattern.  The pattern (a platform host such as
`github.com`) is stored lowercase; the scanned character is lowered, which
models the `/i` flag of the source regexes on the ASCII URLs involved. -/
def afterHost : List Char → List Char → Option (List Char)
  | [], s => some s
  | _ :: _, [] => none
  | a :: as, b :: bs => if a == b.toLower then afterHost as bs else none

/-- The tail of every platform regex after the host literal:
`[:/]([^/]+)/([^/.]+)`, returning the two capture groups.

Greediness is exact here: `[^/]+` consumes the maximal run of non-`/`
characters; if the next character is not `/` no amount of backtracking can
help, because the regex then requires a literal `/` at a position holding a
non-`/` character.  Likewise for `[^/.]+`, whose failure cannot be repaired
by shrinking `[^/]+`.  So the greedy, backtracking-free reading below is
exactly the JavaScript regex semantics at a fixed start position. -/
def matchTail (rest : List Char) : Option (List Char × List Char) :=
  match rest with
  | [] => none
  | c :: rest1 =>
      if c == ':' || c == '/' then
        match rest1.dropWhile (fun d => !(d == '/')) with
        | [] => none
        | c2 :: rest3 =>
            if c2 == '/' then
              if (rest1.takeWhile (fun d => !(d == '/'))).isEmpty
                  || (rest3.takeWhile (fun d => !(d == '/') && !(d == '.'))).isEmpty
                then none
                else some (rest1.takeWhile (fun d => !(d == '/')),
                  rest3.takeWhile (fun d => !(d == '/') && !(d == '.')))
            else none
      else none

/-- One attempt of the platform regex at a fixed position of the subject. -/
def tryMatchAt (host s : List Char) : Option (List Char × List Char) :=
  match afterHost host s with
  | none => none
  | some rest => matchTail rest

/-- `url.match(pattern)` for a platform pattern
`/host[:\/]([^\/]+)\/([^\/.]+)/i` : scan left to right and return the first
position where the pattern matches, with the two captures
(account, repository). -/
def searchPattern (host : List Char) : List Char → Option (List Char × List Char)
  | [] => tryMatchAt host []
  | c :: rest =>
      match tryMatchAt host (c :: rest) with
      | some r => some r
      | none => searchPattern host rest

/-- One entry of the `PLATFORMS` registry of the source.  The recognition
pattern of every platform is `/<host>[:\/]([^\/]+)\/([^\/.]+)/i`, so the
pattern is represented by its host literal. -/
structure Endpoint where
  key : String
  name : String
  host : List Char
  template : List Char
deriving DecidableEq, Repr

/-- The `github` entry of `PLATFORMS`. -/
def githubE : Endpoint :=
  ⟨"github", "GitHub", "github.com".data, "git@github.com:{username}/{repo}.git".data⟩

/-- The `gitee` entry of `PLATFORMS`. -/
def giteeE : Endpoint :=
  ⟨"gitee", "Gitee", "gitee.com".data, "git@gitee.com:{username}/{repo}.git".data⟩

/-- The `gitlab` entry of `PLATFORMS`. -/
def gitlabE : Endpoint :=
  ⟨"gitlab", "GitLab", "gitlab.com".data, "git@gitlab.com:{username}/{repo}.git".data⟩

/-- The `gitcode` entry of `PLATFORMS`. -/
def gitcodeE : Endpoint :=
  ⟨"gitcode", "GitCode", "gitcode.com".data, "git@gitcode.com:{username}/{repo}.git".data⟩

/-- The `PLATFORMS` constant of `src/lib/index.js` (identical in all source
variants): github, gitee, gitlab, gitcode, in source order. -/
def PLATFORMS : List Endpoint := [githubE, giteeE, gitlabE, gitcodeE]

/-- Result record of `parseRepoInfo` in the source:
`{ platform, username, repo, url }`. -/
structure ParsedRepoInfo where
  platform : String
  username : List Char
  repo : List Char
  url : List Char
deriving DecidableEq, Repr

/-- Helper for `parseRepoInfo`: iterate the registry in order, first
matching platform wins. -/
def parseRepoInfoAux (url : List Char) : List Endpoint → Option ParsedRepoInfo
  | [] => none
  | e :: es =>
      match searchPattern e.host url with
      | some (u, r) => some ⟨e.key, u, r, url⟩
      | none => parseRepoInfoAux url es

/-- `parseRepoInfo(url)` of the source: try each platform pattern in
registry order, return the first match's platform / username / repo. -/
def parseRepoInfo (url : List Char) : Option ParsedRepoInfo :=
  parseRepoInfoAux url PLATFORMS

/-- `PLATFORMS[key]` lookup. -/
def findPlatform (key : String) : Option Endpoint :=
  PLATFORMS.find? (fun e => e.key == key)

/-- The substitution performed by `initConfig`:
`platformInfo.template.replace("{username}", u).replace("{repo}", r)`. -/
def renderURL (e : Endpoint) (u r : List Char) : List Char :=
  replaceFirst "{repo}".data r (replaceFirst "{username}".data u e.template)

/-- Association-list lookup keyed by `String`, modelling both JavaScript
object property access and `git remote get-url <name>`. -/
def lookupS {α : Type} (k : String) : List (String × α) → Option α
  | [] => none
  | (n, v) :: t => if n = k then some v else lookupS k t

/-- JavaScript object property assignment `obj[k] = v` on an
insertion-ordered map: overwrite in place when the key exists, append
otherwise. -/
def setKey {α : Type} (m : List (String × α)) (k : String) (v : α) : List (String × α) :=
  if (lookupS k m).isSome then
    m.map (fun kv => if kv.1 = k then (k, v) else kv)
  else m ++ [(k, v)]

/-- One platform entry of the persisted configuration:
`{ enabled, username, url }`. -/
structure PlatformCfg where
  enabled : Bool
  username : List Char
  url : List Char
deriving DecidableEq, Repr

/-- The persisted `.mgit-push.json` record built by `initConfig`
(`createdAt` is a wall-clock timestamp, irrelevant to the logic, omitted). -/
structure WorkingCopyConfig where
  repository : List Char
  platforms : List (String × PlatformCfg)
deriving DecidableEq, Repr

/-- The platform-configuration loop of `initConfig`: for each selected
platform key, look the platform up in the registry and store
`{enabled: true, username, url: template.replace(...).replace(...)}`.
`usernameFor` abstracts the interactive answer (uniform account or
per-platform prompt); in the source `selected` always consists of registry
keys, so the registry lookup always succeeds there. -/
def buildPlatformConfigs (selected : List String) (usernameFor : String → List Char)
    (repo : List Char) : List (String × PlatformCfg) :=
  selected.filterMap (fun k =>
    (findPlatform k).map (fun e => (k, ⟨true, usernameFor k, renderURL e (usernameFor k) repo⟩)))

/-- The pure core of `initConfig`: the configuration record it saves. -/
def initConfigPure (repo : List Char) (selected : List String)
    (usernameFor : String → List Char) : WorkingCopyConfig :=
  ⟨repo, buildPlatformConfigs selected usernameFor repo⟩

/-- The git remote bindings of the working copy, as mutated by
`git remote add` / `git remote set-url`: name ↦ URL. -/
abbrev GitState := List (String × List Char)

/-- `remoteExists(name)` of the source (`git remote get-url` succeeds). -/
def remoteExistsIn (g : GitState) (name : String) : Bool :=
  (lookupS name g).isSome

/-- Effect of `git remote set-url name url`. -/
def setRemoteUrl (g : GitState) (name : String) (url : List Char) : GitState :=
  g.map (fun nv => if nv.1 = name then (name, url) else nv)

/-- Effect of `git remote add name url` (only issued when the name is absent). -/
def addRemote (g : GitState) (name : String) (url : List Char) : GitState :=
  g ++ [(name, url)]

/-- The git commands `setupRemotes` can issue. -/
inductive ROp where
  | add (name : String) (url : List Char)
  | setUrl (name : String) (url : List Char)
deriving DecidableEq, Repr

/-- The command chosen by `setupRemotes` for one platform: `set-url` when the
remote exists, `add` otherwise. -/
def remoteOpFor (g : GitState) (name : String) (url : List Char) : ROp :=
  if remoteExistsIn g name then .setUrl name url else .add name url

/-- State effect of `remoteOpFor`. -/
def applyRemoteOp (g : GitState) (name : String) (url : List Char) : GitState :=
  if remoteExistsIn g name then setRemoteUrl g name url else addRemote g name url

/-- Result of `setupRemotes`: `err = some (platform, message)` models the
`spinner.fail` + `return false` path (the run reports the offending
platform with the underlying diagnostic); `state` is the git remote state
when the function returns, `ops` the git commands issued, in order. -/
structure SetupResult where
  err : Option (String × List Char)
  state : GitState
  ops : List ROp
deriving DecidableEq, Repr

/-- `setupRemotes(config)` of the source.  `oracle p = some msg` means the
external `git remote add/set-url` command for platform `p` throws with
diagnostic `msg` (no state change); `none` means it succeeds.  Disabled
platforms are skipped; the loop returns `false` at the first failure,
leaving the remotes already reconciled in place. -/
def setupRemotes (oracle : String → Option (List Char)) :
    List (String × PlatformCfg) → GitState → SetupResult
  | [], g => ⟨none, g, []⟩
  | (p, c) :: rest, g =>
      if c.enabled then
        match oracle p with
        | some msg => ⟨some (p, msg), g, []⟩
        | none =>
            let g' := applyRemoteOp g p c.url
            let r := setupRemotes oracle rest g'
            ⟨r.err, r.state, remoteOpFor g p c.url :: r.ops⟩
      else setupRemotes oracle rest g

/-- `Object.entries(config.platforms).filter(([,cfg]) => cfg.enabled)
.map(([platform]) => platform)` — the enabled platforms in configuration
iteration order. -/
def enabledOf (ps : List (String × PlatformCfg)) : List String :=
  (ps.filter (fun pc => pc.2.enabled)).map Prod.fst

/-- The `results = { success: [], failed: [] }` accumulator of `pushToAll`. -/
structure PushResults where
  success : List String
  failed : List (String × List Char)
deriving DecidableEq, Repr

/-- The push loop of `pushToAll`: each iteration invokes `pushToRemote` (the
platform is recorded in the attempt log — first component — whatever the
outcome), then appends the platform to `results.success`, or
`(platform, error.message)` to `results.failed`.  `outcome p = none` models
a zero exit code of the spawned `git push`, `some msg` a failure with
diagnostic `msg`. -/
def pushLoopLog (outcome : String → Option (List Char)) :
    List String → List String × PushResults
  | [] => ([], ⟨[], []⟩)
  | p :: rest =>
      let r := pushLoopLog outcome rest
      match outcome p with
      | none => (p :: r.1, ⟨p :: r.2.success, r.2.failed⟩)
      | some msg => (p :: r.1, ⟨r.2.success, (p, msg) :: r.2.failed⟩)

/-- How a run of the push phase of `pushToAll` ends. -/
inductive PushPhase where
  /-- `setupRemotes` returned false: the offending platform and diagnostic
  were reported, the run stops. -/
  | setupFailed (platform : String) (msg : List Char)
  /-- `enabledPlatforms.length === 0`: the distinct message
  `❌ 没有启用的推送平台` is printed and the run stops. -/
  | noEnabled
  /-- the push loop ran and produced a report. -/
  | report (r : PushResults)
deriving DecidableEq, Repr

/-- Combined outcome of the push phase: how it ended, the final git remote
state, the remote commands issued, and the list of platforms for which a
push was attempted (in order). -/
structure FlowResult where
  phase : PushPhase
  state : GitState
  ops : List ROp
  attempts : List String
deriving DecidableEq, Repr

/-- The tail of `pushToAll` after config load and user confirmation:
run `setupRemotes` (abort on failure), abort with the explicit
"no enabled platforms" message when no platform is enabled, otherwise run
the push loop over the enabled platforms in configuration order. -/
def pushFlow (platforms : List (String × PlatformCfg))
    (setupOracle pushOracle : String → Option (List Char)) (g : GitState) : FlowResult :=
  let r := setupRemotes setupOracle platforms g
  match r.err with
  | some (p, m) => ⟨.setupFailed p m, r.state, r.ops, []⟩
  | none =>
      let enabled := enabledOf platforms
      if enabled = [] then ⟨.noEnabled, r.state, r.ops, []⟩
      else
        let res := pushLoopLog pushOracle enabled
        ⟨.report res.2, r.state, r.ops, res.1⟩

/-- The fetch/push URL pair of one remote binding as parsed by
`getRemotes()` from `git remote -v`. -/
structure RemoteURLs where
  fetch : Option (List Char)
  push : Option (List Char)
deriving DecidableEq, Repr

/-- `urls.fetch || urls.push` of the source, including JavaScript's
falsiness of the empty string. -/
def jsOr (a b : Option (List Char)) : Option (List Char) :=
  match a with
  | some s => if s = [] then b else some s
  | none => b

/-- One per-platform discovery record of `analyzeRepo`:
`{ username, remoteName, url }`. -/
structure DiscoveredP where
  username : List Char
  remoteName : String
  url : List Char
deriving DecidableEq, Repr

/-- Mutable accumulator of `analyzeRepo` while scanning the bindings:
`repo` is still `null`-able, `platforms` an insertion-ordered map. -/
structure RepoScan where
  repo : Option (List Char)
  platforms : List (String × DiscoveredP)
deriving DecidableEq, Repr

/-- Final result of `analyzeRepo` (after the directory-name fallback). -/
structure RepoInfo where
  repo : List Char
  platforms : List (String × DiscoveredP)
deriving DecidableEq, Repr

/-- First pass of `analyzeRepo` in `src/lib/index.js` (lines 167–181): for
every binding whose URL parses, set `info.repo` when still null, and assign
`info.platforms[parsed.platform]` **unconditionally** (a later binding for
the same platform overwrites an earlier one). -/
def libPass1 : List (String × RemoteURLs) → RepoScan → RepoScan
  | [], info => info
  | (name, urls) :: rest, info =>
      match jsOr urls.fetch urls.push with
      | none => libPass1 rest info
      | some url =>
          match parseRepoInfo url with
          | none => libPass1 rest info
          | some parsed =>
              let repo' := match info.repo with
                | none => some parsed.repo
                | some r0 => some r0
              libPass1 rest
                ⟨repo', setKey info.platforms parsed.platform ⟨parsed.username, name, url⟩⟩

/-- Second pass of `analyzeRepo` in `src/lib/index.js` (lines 184–198): for
every registry key not yet populated, if a binding is named exactly like the
platform and its URL parses, record it under that key (note the key is the
remote's name, even when the URL classifies to another platform). -/
def libPass2 (remotes : List (String × RemoteURLs)) :
    List String → RepoScan → RepoScan
  | [], info => info
  | k :: ks, info =>
      match lookupS k remotes, lookupS k info.platforms with
      | some urls, none =>
          (match jsOr urls.fetch urls.push with
          | none => libPass2 remotes ks info
          | some url =>
              match parseRepoInfo url with
              | none => libPass2 remotes ks info
              | some parsed =>
                  libPass2 remotes ks
                    ⟨info.repo, setKey info.platforms k ⟨parsed.username, k, url⟩⟩)
      | _, _ => libPass2 remotes ks info

/-- `analyzeRepo()` of `src/lib/index.js`: both passes, then the
directory-name fallback for the repository name.  `dir` models
`path.basename(process.cwd())`. -/
def analyzeRepoLib (remotes : List (String × RemoteURLs)) (dir : List Char) : RepoInfo :=
  let i := libPass2 remotes (PLATFORMS.map Endpoint.key) (libPass1 remotes ⟨none, []⟩)
  ⟨i.repo.getD dir, i.platforms⟩

/-- The single scanning pass of `analyzeRepo` in `src/unnamed/part_000`
(lines 178–197): `info.repo` is set when still null **or** when the binding
is named `origin`; a platform entry is recorded only when the endpoint key is
not yet populated (first-discovered wins). -/
def v1Pass : List (String × RemoteURLs) → RepoScan → RepoScan
  | [], info => info
  | (name, urls) :: rest, info =>
      match jsOr urls.fetch urls.push with
      | none => v1Pass rest info
      | some url =>
          match parseRepoInfo url with
          | none => v1Pass rest info
          | some parsed =>
              let repo' := if info.repo = none ∨ name = "origin"
                then some parsed.repo else info.repo
              let platforms' :=
                if (lookupS parsed.platform info.platforms).isSome then info.platforms
                else info.platforms ++ [(parsed.platform, ⟨parsed.username, name, url⟩)]
              v1Pass rest ⟨repo', platforms'⟩

/-- `analyzeRepo()` of `src/unnamed/part_000` (first variant): one pass,
then the directory-name fallback. -/
def analyzeRepoV1 (remotes : List (String × RemoteURLs)) (dir : List Char) : RepoInfo :=
  let i := v1Pass remotes ⟨none, []⟩
  ⟨i.repo.getD dir, i.platforms⟩

/-- Spec-side characterization (per §4.2 of the specification): the record
of the **first** binding in scan order whose URL classifies to endpoint
key `k`. -/
def firstDiscovered (k : String) : List (String × RemoteURLs) → Option DiscoveredP
  | [] => none
  | (name, urls) :: rest =>
      match jsOr urls.fetch urls.push with
      | none => firstDiscovered k rest
      | some url =>
          match parseRepoInfo url with
          | none => firstDiscovered k rest
          | some parsed =>
              if parsed.platform = k then some ⟨parsed.username, name, url⟩
              else firstDiscovered k rest

/-- The record of the **last** binding in scan order whose URL classifies to
endpoint key `k` (what the `src/lib/index.js` first pass actually keeps). -/
def lastDiscovered (k : String) : List (String × RemoteURLs) → Option DiscoveredP
  | [] => none
  | (name, urls) :: rest =>
      match lastDiscovered k rest with
      | some v => some v
      | none =>
          match jsOr urls.fetch urls.push with
          | none => none
          | some url =>
              match parseRepoInfo url with
              | none => none
              | some parsed =>
                  if parsed.platform = k then some ⟨parsed.username, name, url⟩
                  else none

/-- Spec-side: the repository name parsed from the binding named `origin`,
when that binding exists and its URL classifies. -/
def originRepoOf (remotes : List (String × RemoteURLs)) : Option (List Char) :=
  match lookupS "origin" remotes with
  | none => none
  | some urls =>
      match jsOr urls.fetch urls.push with
      | none => none
      | some url => (parseRepoInfo url).map ParsedRepoInfo.repo

/-- Spec-side: the first successfully parsed repository name in scan order. -/
def firstParsedRepo : List (String × RemoteURLs) → Option (List Char)
  | [] => none
  | (_, urls) :: rest =>
      match jsOr urls.fetch urls.push with
      | none => firstParsedRepo rest
      | some url =>
          match parseRepoInfo url with
          | none => firstParsedRepo rest
          | some parsed => some parsed.repo

/-- The configuration file name `CONFIG_FILE = ".mgit-push.json"`. -/
def configFileName : List Char := ".mgit-push.json".data

/-- The block appended to `.gitignore` by `updateGitignore`. -/
def gitignoreEntry : List Char := "# mgit-push 本地配置\n.mgit-push.json\n".data

/-- Status part of the result of `updateGitignore` (the error branch can
only be reached through a file-system failure, which the pure content
transformation below cannot produce). -/
inductive GStatus where
  | exists
  | added
deriving DecidableEq, Repr

/-- Whether the content ends with a newline (`content.endsWith("\n")`;
false on the empty string, as in JavaScript). -/
def endsNL : List Char → Bool
  | [] => false
  | [c] => c == '\n'
  | _ :: c :: t => endsNL (c :: t)

/-- `updateGitignore()` of `src/unnamed/part_000` as a pure content
transformation: first component the resulting `.gitignore` content, second
the reported status.  A missing file is the empty content. -/
def updateGitignore (content : List Char) : List Char × GStatus :=
  if occursIn configFileName content then (content, .exists)
  else
    (content ++ (if content ≠ [] ∧ endsNL content = false then ['\n'] else [])
      ++ gitignoreEntry, .added)

/-! ## Basic lemmas about the string primitives -/

lemma occursIn_append_right (pat t : List Char) (h : occursIn pat t = true) :
    ∀ s : List Char, occursIn pat (s ++ t) = true := by
  intro s
  induction s with
  | nil => simpa using h
  | cons c s ih => simp [occursIn, ih]

/-! ## C10: `updateGitignore` is idempotent -/

/-- **C10.**  If the `.gitignore` content already contains the configuration
file name `.mgit-push.json` as a substring, `updateGitignore` leaves the
content unchanged and reports status `exists` (first conjunct); consequently
re-running the flow after a run that appended the entry changes nothing
further: applying `updateGitignore` to the content any run produced is the
identity with status `exists`, so the init flow appends the ignore entry at
most once (second conjunct). -/
theorem updateGitignore_idempotent :
    (∀ c, occursIn configFileName c = true → updateGitignore c = (c, GStatus.exists)) ∧
    (∀ c, updateGitignore (updateGitignore c).1 = ((updateGitignore c).1, GStatus.exists)) := by
  constructor
  · intro c h
    simp [updateGitignore, h]
  · intro c
    by_cases h : occursIn configFileName c = true
    · simp [updateGitignore, h]
    · have h' : occursIn configFileName c = false := by
        simpa using h
      have hentry : occursIn configFileName gitignoreEntry = true := by decide
      have hocc : ∀ s t : List Char, occursIn configFileName t = true →
          occursIn configFileName (s ++ t) = true :=
        fun s t ht => occursIn_append_right _ _ ht s
      simp [updateGitignore, h', hocc, hentry]

/-- Witness for C10 at a concrete `.gitignore` content. -/
theorem updateGitignore_idempotent_witness :
    occursIn configFileName "node_modules\n.mgit-push.json\n".data = true ∧
    updateGitignore "node_modules\n.mgit-push.json\n".data =
      ("node_modules\n.mgit-push.json\n".data, GStatus.exists) :=
  ⟨by decide, updateGitignore_idempotent.1 _ (by decide)⟩

/-! ## Lemmas about `setupRemotes` and the push loop -/

lemma enabledOf_nil_all_disabled (ps : List (String × PlatformCfg))
    (h : enabledOf ps = []) : ∀ pc ∈ ps, pc.2.enabled = false := by
  induction ps with
  | nil => intro pc hpc; cases hpc
  | cons qc rest ih =>
      intro pc hpc
      by_cases hc : qc.2.enabled
      · exfalso
        simp [enabledOf, List.filter_cons, hc] at h
      · rcases List.mem_cons.mp hpc with h1 | h1
        · simpa [h1] using hc
        · exact ih (by simpa [enabledOf, List.filter_cons, hc] using h) pc h1

lemma setupRemotes_all_disabled (o : String → Option (List Char))
    (ps : List (String × PlatformCfg)) (g : GitState)
    (h : ∀ pc ∈ ps, pc.2.enabled = false) :
    setupRemotes o ps g = ⟨none, g, []⟩ := by
  induction ps generalizing g with
  | nil => rfl
  | cons qc rest ih =>
      have hq : qc.2.enabled = false := h qc (by simp)
      obtain ⟨q, c⟩ := qc
      simp only [setupRemotes]
      rw [if_neg (by simp_all)]
      exact ih g (fun pc hpc => h pc (by simp [hpc]))

lemma setupRemotes_err_none (o : String → Option (List Char))
    (ps : List (String × PlatformCfg)) (g : GitState)
    (h : ∀ pc ∈ ps, pc.2.enabled = true → o pc.1 = none) :
    (setupRemotes o ps g).err = none := by
  induction ps generalizing g with
  | nil => rfl
  | cons qc rest ih =>
      obtain ⟨q, c⟩ := qc
      by_cases hc : c.enabled
      · have ho : o q = none := h (q, c) (by simp) hc
        simp only [setupRemotes, if_pos hc, ho]
        exact ih _ (fun pc hpc hen => h pc (by simp [hpc]) hen)
      · simp only [setupRemotes, if_neg hc]
        exact ih g (fun pc hpc hen => h pc (by simp [hpc]) hen)

lemma pushLoopLog_fst (o : String → Option (List Char)) (ps : List String) :
    (pushLoopLog o ps).1 = ps := by
  induction ps with
  | nil => rfl
  | cons p rest ih =>
      simp only [pushLoopLog]
      cases h : o p <;> simp [h, ih]

lemma pushLoopLog_success (o : String → Option (List Char)) (ps : List String) :
    (pushLoopLog o ps).2.success = ps.filter (fun p => (o p).isNone) := by
  induction ps with
  | nil => rfl
  | cons p rest ih =>
      simp only [pushLoopLog, List.filter_cons]
      cases h : o p <;> simp [h, ih]

lemma pushLoopLog_failed (o : String → Option (List Char)) (ps : List String) :
    (pushLoopLog o ps).2.failed =
      ps.filterMap (fun p => (o p).map (fun m => (p, m))) := by
  induction ps with
  | nil => rfl
  | cons p rest ih =>
      simp only [pushLoopLog, List.filterMap_cons]
      cases h : o p <;> simp [h, ih]

lemma pushLoopLog_failed_fst (o : String → Option (List Char)) (ps : List String) :
    (pushLoopLog o ps).2.failed.map Prod.fst = ps.filter (fun p => (o p).isSome) := by
  induction ps with
  | nil => rfl
  | cons p rest ih =>
      simp only [pushLoopLog, List.filter_cons]
      cases h : o p <;> simp [h, ih]

lemma pushLoopLog_length (o : String → Option (List Char)) (ps : List String) :
    (pushLoopLog o ps).2.success.length + (pushLoopLog o ps).2.failed.length
      = ps.length := by
  induction ps with
  | nil => rfl
  | cons p rest ih =>
      simp only [pushLoopLog]
      cases h : o p <;> simp [h] <;> omega

/-! ## C8: zero enabled platforms -/

/-- **C8.**  With zero enabled platforms the push flow stops with the
explicit "no enabled push platforms" outcome (`PushPhase.noEnabled`, the
`❌ 没有启用的推送平台` message of the source), attempting no push, issuing
no remote command and touching no state — it never reaches the report
stage, so it cannot emit an empty report silently. -/
theorem pushFlow_nothing_to_push (ps : List (String × PlatformCfg))
    (setupOracle pushOracle : String → Option (List Char)) (g : GitState)
    (h : enabledOf ps = []) :
    pushFlow ps setupOracle pushOracle g = ⟨.noEnabled, g, [], []⟩ := by
  have hsetup : setupRemotes setupOracle ps g = ⟨none, g, []⟩ :=
    setupRemotes_all_disabled _ _ _ (enabledOf_nil_all_disabled ps h)
  simp [pushFlow, hsetup, h]

/-- Witness for C8: a configuration whose only platform is disabled. -/
theorem pushFlow_nothing_to_push_witness :
    pushFlow [("github", ⟨false, "alice".data, "u".data⟩)]
      (fun _ => none) (fun _ => none) [] = ⟨.noEnabled, [], [], []⟩ :=
  pushFlow_nothing_to_push _ _ _ _ (by decide)

/-! ## C1: pushes are attempted independently and unconditionally -/

/-- **C1.**  With every remote reconciled (reconciliation oracle
all-success) and at least one enabled platform, the push flow attempts a
push for **every** enabled platform in configuration iteration order — the
attempt log equals `enabledOf ps` regardless of the per-platform outcomes,
so no failure prevents a later attempt — and the final report is the push
loop's report, in which every enabled platform whose push failed appears in
the failure list together with its diagnostic message. -/
theorem pushAll_attempts_all (ps : List (String × PlatformCfg))
    (pushOracle : String → Option (List Char)) (g : GitState)
    (hne : ¬ enabledOf ps = []) :
    (pushFlow ps (fun _ => none) pushOracle g).attempts = enabledOf ps ∧
    (pushFlow ps (fun _ => none) pushOracle g).phase =
      .report (pushLoopLog pushOracle (enabledOf ps)).2 ∧
    ∀ p m, p ∈ enabledOf ps → pushOracle p = some m →
      (p, m) ∈ (pushLoopLog pushOracle (enabledOf ps)).2.failed := by
  have herr : (setupRemotes (fun _ => none) ps g).err = none :=
    setupRemotes_err_none _ _ _ (fun _ _ _ => rfl)
  refine ⟨?_, ?_, ?_⟩
  · simp [pushFlow, herr, hne, pushLoopLog_fst]
  · simp [pushFlow, herr, hne]
  · intro p m hp hm
    rw [pushLoopLog_failed]
    exact List.mem_filterMap.2 ⟨p, hp, by simp [hm]⟩

/-- Witness for C1: the spec's scenario — github succeeds, gitee fails with
"permission denied"; both are attempted, gitee lands in the failure list. -/
theorem pushAll_attempts_all_witness :
    (pushFlow
        [("github", ⟨true, "a".data, "u1".data⟩), ("gitee", ⟨true, "b".data, "u2".data⟩)]
        (fun _ => none)
        (fun p => if p = "gitee" then some "permission denied".data else none)
        []).attempts = ["github", "gitee"] ∧
    ("gitee", "permission denied".data) ∈
      (pushLoopLog (fun p => if p = "gitee" then some "permission denied".data else none)
        ["github", "gitee"]).2.failed := by
  have h := pushAll_attempts_all
    [("github", ⟨true, "a".data, "u1".data⟩), ("gitee", ⟨true, "b".data, "u2".data⟩)]
    (fun p => if p = "gitee" then some "permission denied".data else none)
    [] (by decide)
  exact ⟨by rw [h.1]; decide, h.2.2 "gitee" _ (by decide) (by decide)⟩

/-! ## C9: the report partitions the enabled platforms -/

/-- **C9.**  The push loop's report partitions its input: the success list
is exactly the platforms whose push succeeded and the failure keys exactly
those whose push failed (both as order-preserving sublists of the input
list, hence of the configuration iteration order), the two lengths sum to
the number of platforms pushed, and no platform appears in both lists. -/
theorem pushLoop_report_partition (o : String → Option (List Char)) (ps : List String) :
    (pushLoopLog o ps).2.success = ps.filter (fun p => (o p).isNone) ∧
    (pushLoopLog o ps).2.failed.map Prod.fst = ps.filter (fun p => (o p).isSome) ∧
    (pushLoopLog o ps).2.success.length + (pushLoopLog o ps).2.failed.length = ps.length ∧
    List.Sublist (pushLoopLog o ps).2.success ps ∧
    List.Sublist ((pushLoopLog o ps).2.failed.map Prod.fst) ps ∧
    ∀ p, p ∈ (pushLoopLog o ps).2.success → p ∉ (pushLoopLog o ps).2.failed.map Prod.fst := by
  refine ⟨pushLoopLog_success o ps, pushLoopLog_failed_fst o ps, pushLoopLog_length o ps,
    ?_, ?_, ?_⟩
  · rw [pushLoopLog_success]; exact List.filter_sublist ps
  · rw [pushLoopLog_failed_fst]; exact List.filter_sublist ps
  · intro p hs hf
    rw [pushLoopLog_success] at hs
    rw [pushLoopLog_failed_fst] at hf
    have h1 := (List.mem_filter.1 hs).2
    have h2 := (List.mem_filter.1 hf).2
    simp at h1 h2
    rw [h1] at h2
    cases h2

/-- Witness for C9 at the spec's scenario. -/
theorem pushLoop_report_partition_witness :
    (pushLoopLog (fun p => if p = "gitee" then some "permission denied".data else none)
        ["github", "gitee"]).2.success = ["github"] ∧
    "github" ∉ ((pushLoopLog
        (fun p => if p = "gitee" then some "permission denied".data else none)
        ["github", "gitee"]).2.failed.map Prod.fst) := by
  have h := pushLoop_report_partition
    (fun p => if p = "gitee" then some "permission denied".data else none) ["github", "gitee"]
  exact ⟨by rw [h.1]; decide, h.2.2.2.2.2 "github" (by rw [h.1]; decide)⟩

/-! ## Lemmas about `lookupS` and the git remote state -/

lemma lookupS_eq_none_iff {α : Type} (k : String) (m : List (String × α)) :
    lookupS k m = none ↔ k ∉ m.map Prod.fst := by
  induction m with
  | nil => simp [lookupS]
  | cons nv t ih =>
      obtain ⟨n, v⟩ := nv
      by_cases h : n = k
      · subst h; simp [lookupS]
      · simp only [lookupS, if_neg h, List.map_cons, List.mem_cons, ih]
        constructor
        · intro hk hor
          rcases hor with h1 | h1
          · exact h h1.symm
          · exact hk h1
        · intro hk h1
          exact hk (Or.inr h1)

lemma lookupS_append_not_mem {α : Type} (k p : String) (v : α)
    (m : List (String × α)) (h : ¬ p = k) :
    lookupS k (m ++ [(p, v)]) = lookupS k m := by
  induction m with
  | nil => simp [lookupS, h]
  | cons nv t ih =>
      obtain ⟨n, w⟩ := nv
      by_cases hn : n = k
      · simp [lookupS, hn]
      · simp [lookupS, hn, ih]

lemma setRemoteUrl_cons (n : String) (w : List Char) (t : GitState) (p : String)
    (u : List Char) :
    setRemoteUrl ((n, w) :: t) p u
      = (if n = p then (p, u) else (n, w)) :: setRemoteUrl t p u := rfl

lemma lookupS_setRemoteUrl_ne (q p : String) (u : List Char) (g : GitState)
    (h : ¬ p = q) : lookupS q (setRemoteUrl g p u) = lookupS q g := by
  induction g with
  | nil => rfl
  | cons nv t ih =>
      obtain ⟨n, w⟩ := nv
      rw [setRemoteUrl_cons]
      by_cases hn : n = p
      · rw [if_pos hn]
        subst hn
        simp only [lookupS, if_neg h]
        exact ih
      · rw [if_neg hn]
        by_cases hq : n = q
        · simp only [lookupS, if_pos hq]
        · simp only [lookupS, if_neg hq]
          exact ih

lemma lookupS_applyRemoteOp_ne (q p : String) (u : List Char) (g : GitState)
    (h : ¬ p = q) : lookupS q (applyRemoteOp g p u) = lookupS q g := by
  unfold applyRemoteOp
  by_cases he : remoteExistsIn g p
  · rw [if_pos he]; exact lookupS_setRemoteUrl_ne q p u g h
  · rw [if_neg he]; exact lookupS_append_not_mem q p u g h

lemma lookupS_setRemoteUrl_self (p : String) (u : List Char) (g : GitState)
    (h : remoteExistsIn g p = true) :
    lookupS p (setRemoteUrl g p u) = some u := by
  induction g with
  | nil => simp [remoteExistsIn, lookupS] at h
  | cons nv t ih =>
      obtain ⟨n, w⟩ := nv
      rw [setRemoteUrl_cons]
      by_cases hn : n = p
      · rw [if_pos hn]
        simp [lookupS]
      · rw [if_neg hn]
        have ht : remoteExistsIn t p = true := by
          simpa [remoteExistsIn, lookupS, hn] using h
        simp only [lookupS, if_neg hn]
        exact ih ht

lemma lookupS_applyRemoteOp_self (p : String) (u : List Char) (g : GitState) :
    lookupS p (applyRemoteOp g p u) = some u := by
  unfold applyRemoteOp
  by_cases he : remoteExistsIn g p
  · rw [if_pos he]; exact lookupS_setRemoteUrl_self p u g he
  · rw [if_neg he]
    have hnone : lookupS p g = none := by
      cases hl : lookupS p g with
      | none => rfl
      | some v => exact absurd (by simp [remoteExistsIn, hl]) he
    induction g with
    | nil => simp [addRemote, lookupS]
    | cons nv t ih =>
        obtain ⟨n, w⟩ := nv
        have hn : ¬ n = p := by
          intro hnp
          simp [lookupS, hnp] at hnone
        simp only [lookupS, if_neg hn] at hnone
        have he' : ¬ remoteExistsIn t p = true := by
          simp [remoteExistsIn, hnone]
        simpa [addRemote, lookupS, hn] using ih he' hnone

/-- Platforms not named in the configuration list are untouched by
`setupRemotes`. -/
lemma setupRemotes_untouched (o : String → Option (List Char))
    (ps : List (String × PlatformCfg)) (g : GitState) (q : String)
    (h : q ∉ ps.map Prod.fst) :
    lookupS q (setupRemotes o ps g).state = lookupS q g := by
  induction ps generalizing g with
  | nil => rfl
  | cons pc rest ih =>
      obtain ⟨p, c⟩ := pc
      have hq : ¬ p = q := fun hpq => h (by simp [hpq])
      have hrest : q ∉ rest.map Prod.fst := fun hr => h (by simp [hr])
      by_cases hc : c.enabled
      · cases ho : o p with
        | some m => simp [setupRemotes, hc, ho]
        | none =>
            simp only [setupRemotes, if_pos hc, ho]
            rw [ih _ hrest]
            exact lookupS_applyRemoteOp_ne q p c.url g hq
      · simp only [setupRemotes, if_neg hc]
        exact ih g hrest

/-- After a run of `setupRemotes` in which every enabled platform's command
succeeded, every enabled platform's remote points at its configured URL
(distinct platform keys assumed, as JavaScript object keys are). -/
lemma setupRemotes_establishes (o : String → Option (List Char))
    (ps : List (String × PlatformCfg)) (g : GitState)
    (hnd : (ps.map Prod.fst).Nodup)
    (ho : ∀ pc ∈ ps, pc.2.enabled = true → o pc.1 = none) :
    ∀ pc ∈ ps, pc.2.enabled = true →
      lookupS pc.1 (setupRemotes o ps g).state = some pc.2.url := by
  induction ps generalizing g with
  | nil => intro pc hpc; cases hpc
  | cons qc rest ih =>
      obtain ⟨q, c⟩ := qc
      intro pc hpc hen
      have hndr : (rest.map Prod.fst).Nodup := by
        simpa using hnd.of_cons
      have hqrest : q ∉ rest.map Prod.fst := by
        have := hnd
        simp only [List.map_cons, List.nodup_cons] at this
        exact this.1
      rcases List.mem_cons.mp hpc with h1 | h1
      · have hq : pc.1 = q := by rw [h1]
        have hc2 : pc.2 = c := by rw [h1]
        have hen' : c.enabled = true := by rw [← hc2]; exact hen
        have hoq : o q = none := ho (q, c) (by simp) hen'
        rw [hq, hc2]
        simp only [setupRemotes, if_pos hen', hoq]
        rw [setupRemotes_untouched o rest _ q hqrest]
        exact lookupS_applyRemoteOp_self q c.url g
      · by_cases hc : c.enabled
        · have hoq : o q = none := ho (q, c) (by simp) hc
          simp only [setupRemotes, if_pos hc, hoq]
          exact ih _ hndr (fun pc' hpc' hen' => ho pc' (by simp [hpc']) hen') pc h1 hen
        · simp only [setupRemotes, if_neg hc]
          exact ih g hndr (fun pc' hpc' hen' => ho pc' (by simp [hpc']) hen') pc h1 hen

lemma setRemoteUrl_names (g : GitState) (p : String) (u : List Char) :
    (setRemoteUrl g p u).map Prod.fst = g.map Prod.fst := by
  induction g with
  | nil => rfl
  | cons nv t ih =>
      obtain ⟨n, w⟩ := nv
      rw [setRemoteUrl_cons]
      by_cases hn : n = p
      · rw [if_pos hn]
        simp only [List.map_cons, ih, hn]
      · rw [if_neg hn]
        simp only [List.map_cons, ih]

lemma applyRemoteOp_nodup (g : GitState) (p : String) (u : List Char)
    (h : (g.map Prod.fst).Nodup) : ((applyRemoteOp g p u).map Prod.fst).Nodup := by
  unfold applyRemoteOp
  by_cases he : remoteExistsIn g p
  · rw [if_pos he, setRemoteUrl_names]; exact h
  · rw [if_neg he]
    have hp : p ∉ g.map Prod.fst := by
      have hnone : lookupS p g = none := by
        cases hl : lookupS p g with
        | none => rfl
        | some v => exact absurd (by simp [remoteExistsIn, hl]) he
      exact (lookupS_eq_none_iff p g).1 hnone
    have : (addRemote g p u).map Prod.fst = g.map Prod.fst ++ [p] := by
      simp [addRemote]
    rw [this]
    exact List.nodup_append.2 ⟨h, List.nodup_singleton p,
      by simpa [List.disjoint_singleton] using hp⟩

lemma setupRemotes_nodup (o : String → Option (List Char))
    (ps : List (String × PlatformCfg)) (g : GitState)
    (h : (g.map Prod.fst).Nodup) :
    ((setupRemotes o ps g).state.map Prod.fst).Nodup := by
  induction ps generalizing g with
  | nil => exact h
  | cons pc rest ih =>
      obtain ⟨p, c⟩ := pc
      by_cases hc : c.enabled
      · cases ho : o p with
        | some m => simpa [setupRemotes, hc, ho] using h
        | none =>
            simp only [setupRemotes, if_pos hc, ho]
            exact ih _ (applyRemoteOp_nodup g p c.url h)
      · simp only [setupRemotes, if_neg hc]
        exact ih g h

/-- Repointing an existing remote to the URL it already has leaves the
remote state unchanged (remote names distinct, as git guarantees). -/
lemma setRemoteUrl_noop (g : GitState) (p : String) (u : List Char)
    (hnd : (g.map Prod.fst).Nodup) (h : lookupS p g = some u) :
    setRemoteUrl g p u = g := by
  induction g with
  | nil => rfl
  | cons nv t ih =>
      obtain ⟨n, w⟩ := nv
      simp only [List.map_cons, List.nodup_cons] at hnd
      rw [setRemoteUrl_cons]
      by_cases hn : n = p
      · subst hn
        have hw : w = u := by simpa [lookupS] using h
        subst hw
        rw [if_pos rfl]
        have ht : setRemoteUrl t n w = t := by
          have hpt : ∀ nv ∈ t, (if nv.1 = n then (n, w) else nv) = nv := by
            intro nv hnv
            have hne : ¬ nv.1 = n :=
              fun he => hnd.1 (he ▸ List.mem_map_of_mem Prod.fst hnv)
            simp [hne]
          calc setRemoteUrl t n w = t.map id := List.map_congr_left hpt
            _ = t := List.map_id t
        rw [ht]
      · rw [if_neg hn]
        have ht : lookupS p t = some u := by simpa [lookupS, hn] using h
        rw [ih hnd.2 ht]

/-- A second pass of `setupRemotes` over a state in which every enabled
platform already points at its configured URL succeeds, changes nothing,
and only issues `set-url` commands (no `add`). -/
lemma setupRemotes_second_pass (o : String → Option (List Char))
    (ps : List (String × PlatformCfg)) (g : GitState)
    (hnd : (g.map Prod.fst).Nodup)
    (hcur : ∀ pc ∈ ps, pc.2.enabled = true → lookupS pc.1 g = some pc.2.url)
    (ho : ∀ pc ∈ ps, pc.2.enabled = true → o pc.1 = none) :
    (setupRemotes o ps g).err = none ∧ (setupRemotes o ps g).state = g ∧
    ∀ op ∈ (setupRemotes o ps g).ops, ∃ n u, op = ROp.setUrl n u := by
  induction ps with
  | nil => exact ⟨rfl, rfl, by intro op h; cases h⟩
  | cons pc rest ih =>
      obtain ⟨p, c⟩ := pc
      by_cases hc : c.enabled
      · have hop : o p = none := ho (p, c) (by simp) hc
        have hl : lookupS p g = some c.url := hcur (p, c) (by simp) hc
        have hex : remoteExistsIn g p = true := by simp [remoteExistsIn, hl]
        have happ : applyRemoteOp g p c.url = g := by
          simp only [applyRemoteOp, if_pos hex]
          exact setRemoteUrl_noop g p c.url hnd hl
        have hrop : remoteOpFor g p c.url = ROp.setUrl p c.url := by
          simp [remoteOpFor, hex]
        have hrest := ih (fun pc' h' he' => hcur pc' (by simp [h']) he')
          (fun pc' h' he' => ho pc' (by simp [h']) he')
        simp only [setupRemotes, if_pos hc, hop, happ, hrop]
        refine ⟨hrest.1, hrest.2.1, ?_⟩
        intro op hmem
        rcases List.mem_cons.mp hmem with h1 | h1
        · exact ⟨p, c.url, h1⟩
        · exact hrest.2.2 op h1
      · simp only [setupRemotes, if_neg hc]
        exact ih (fun pc' h' he' => hcur pc' (by simp [h']) he')
          (fun pc' h' he' => ho pc' (by simp [h']) he')

/-! ## C5: reconciliation is idempotent -/

/-- **C5.**  Reconciliation is idempotent: with distinct platform keys and
distinct remote names (both guaranteed by JavaScript objects resp. git),
and no environment failures, the first `setupRemotes` run succeeds, and a
second run over the resulting state also succeeds, leaves the remote state
exactly as the first run left it (repointing to the already-current URL is
a no-op in effect), and issues no `git remote add` — every command of the
second run is a `set-url`. -/
theorem setupRemotes_idempotent (ps : List (String × PlatformCfg)) (g0 : GitState)
    (hk : (ps.map Prod.fst).Nodup) (hg : (g0.map Prod.fst).Nodup) :
    (setupRemotes (fun _ => none) ps g0).err = none ∧
    (setupRemotes (fun _ => none) ps (setupRemotes (fun _ => none) ps g0).state).err
      = none ∧
    (setupRemotes (fun _ => none) ps (setupRemotes (fun _ => none) ps g0).state).state
      = (setupRemotes (fun _ => none) ps g0).state ∧
    ∀ op ∈ (setupRemotes (fun _ => none) ps
        (setupRemotes (fun _ => none) ps g0).state).ops,
      ∃ n u, op = ROp.setUrl n u := by
  have h1 : (setupRemotes (fun _ => none) ps g0).err = none :=
    setupRemotes_err_none _ _ _ (fun _ _ _ => rfl)
  have hcur := setupRemotes_establishes (fun _ => none) ps g0 hk (fun _ _ _ => rfl)
  have hnd1 := setupRemotes_nodup (fun _ => none) ps g0 hg
  have h2 := setupRemotes_second_pass (fun _ => none) ps
    (setupRemotes (fun _ => none) ps g0).state hnd1 hcur (fun _ _ _ => rfl)
  exact ⟨h1, h2.1, h2.2.1, h2.2.2⟩

/-- Witness for C5 at a concrete configuration and initial remote state. -/
theorem setupRemotes_idempotent_witness :
    (setupRemotes (fun _ => none)
      [("github", ⟨true, "a".data, "git@github.com:a/p.git".data⟩),
       ("gitee", ⟨true, "a".data, "git@gitee.com:a/p.git".data⟩)]
      [("origin", "git@github.com:a/old.git".data)]).err = none ∧
    (setupRemotes (fun _ => none)
      [("github", ⟨true, "a".data, "git@github.com:a/p.git".data⟩),
       ("gitee", ⟨true, "a".data, "git@gitee.com:a/p.git".data⟩)]
      (setupRemotes (fun _ => none)
        [("github", ⟨true, "a".data, "git@github.com:a/p.git".data⟩),
         ("gitee", ⟨true, "a".data, "git@gitee.com:a/p.git".data⟩)]
        [("origin", "git@github.com:a/old.git".data)]).state).state
      = (setupRemotes (fun _ => none)
        [("github", ⟨true, "a".data, "git@github.com:a/p.git".data⟩),
         ("gitee", ⟨true, "a".data, "git@gitee.com:a/p.git".data⟩)]
        [("origin", "git@github.com:a/old.git".data)]).state := by
  have h := setupRemotes_idempotent
    [("github", ⟨true, "a".data, "git@github.com:a/p.git".data⟩),
     ("gitee", ⟨true, "a".data, "git@gitee.com:a/p.git".data⟩)]
    [("origin", "git@github.com:a/old.git".data)] (by decide) (by decide)
  exact ⟨h.1, h.2.2.1⟩

/-! ## C2: reconciliation stops at the first failure -/

lemma setupRemotes_append_fail (o : String → Option (List Char))
    (pre post : List (String × PlatformCfg)) (p : String) (c : PlatformCfg)
    (msg : List Char) (g : GitState)
    (hpre : ∀ qc ∈ pre, qc.2.enabled = true → o qc.1 = none)
    (hen : c.enabled = true) (hfail : o p = some msg) :
    setupRemotes o (pre ++ (p, c) :: post) g =
      ⟨some (p, msg), (setupRemotes o pre g).state, (setupRemotes o pre g).ops⟩ := by
  induction pre generalizing g with
  | nil =>
      simp only [List.nil_append, setupRemotes, if_pos hen, hfail]
  | cons qc rest ih =>
      obtain ⟨q, cq⟩ := qc
      have hstep : ((q, cq) :: rest) ++ (p, c) :: post
          = (q, cq) :: (rest ++ (p, c) :: post) := rfl
      rw [hstep]
      by_cases hc : cq.enabled
      · have ho : o q = none := hpre (q, cq) (by simp) hc
        simp only [setupRemotes, if_pos hc, ho]
        rw [ih _ (fun qc' h' he' => hpre qc' (by simp [h']) he')]
      · simp only [setupRemotes, if_neg hc]
        exact ih g (fun qc' h' he' => hpre qc' (by simp [h']) he')

/-- **C2.**  When reconciliation of platform `p` fails (its `git remote
add`/`set-url` throws with diagnostic `msg`) and all enabled platforms
before it succeeded, `setupRemotes` stops right there: its result carries
the offending platform with the underlying diagnostic, its state and
command log are exactly those of reconciling the prefix — the platforms
after `p` are never touched (the result does not depend on `post`) and the
already-reconciled platforms stay reconciled (each still points at its
configured URL, no rollback).  The surrounding push flow then reports the
setup failure and makes **zero** push attempts. -/
theorem reconcile_failfast (pre post : List (String × PlatformCfg)) (p : String)
    (c : PlatformCfg) (msg : List Char)
    (o pushOracle : String → Option (List Char)) (g0 : GitState)
    (hpre : ∀ qc ∈ pre, qc.2.enabled = true → o qc.1 = none)
    (hen : c.enabled = true) (hfail : o p = some msg)
    (hk : (pre.map Prod.fst).Nodup) :
    setupRemotes o (pre ++ (p, c) :: post) g0 =
      ⟨some (p, msg), (setupRemotes o pre g0).state, (setupRemotes o pre g0).ops⟩ ∧
    (pushFlow (pre ++ (p, c) :: post) o pushOracle g0).phase = .setupFailed p msg ∧
    (pushFlow (pre ++ (p, c) :: post) o pushOracle g0).attempts = [] ∧
    ∀ qc ∈ pre, qc.2.enabled = true →
      lookupS qc.1 (setupRemotes o (pre ++ (p, c) :: post) g0).state = some qc.2.url := by
  have hmain := setupRemotes_append_fail o pre post p c msg g0 hpre hen hfail
  refine ⟨hmain, ?_, ?_, ?_⟩
  · simp [pushFlow, hmain]
  · simp [pushFlow, hmain]
  · intro qc hqc he
    rw [hmain]
    exact setupRemotes_establishes o pre g0 hk hpre qc hqc he

/-- Witness for C2: github reconciles, gitee's remote command fails; the
run stops at gitee with its diagnostic, github's remote stays reconciled,
and no push is attempted. -/
theorem reconcile_failfast_witness :
    setupRemotes (fun q => if q = "gitee" then some "boom".data else none)
        [("github", ⟨true, "a".data, "git@github.com:a/p.git".data⟩),
         ("gitee", ⟨true, "a".data, "git@gitee.com:a/p.git".data⟩),
         ("gitlab", ⟨true, "a".data, "git@gitlab.com:a/p.git".data⟩)] [] =
      ⟨some ("gitee", "boom".data),
       [("github", "git@github.com:a/p.git".data)],
       [ROp.add "github" "git@github.com:a/p.git".data]⟩ ∧
    (pushFlow
        [("github", ⟨true, "a".data, "git@github.com:a/p.git".data⟩),
         ("gitee", ⟨true, "a".data, "git@gitee.com:a/p.git".data⟩),
         ("gitlab", ⟨true, "a".data, "git@gitlab.com:a/p.git".data⟩)]
        (fun q => if q = "gitee" then some "boom".data else none)
        (fun _ => none) []).attempts = [] := by
  have h := reconcile_failfast
    [("github", ⟨true, "a".data, "git@github.com:a/p.git".data⟩)]
    [("gitlab", ⟨true, "a".data, "git@gitlab.com:a/p.git".data⟩)]
    "gitee" ⟨true, "a".data, "git@gitee.com:a/p.git".data⟩ "boom".data
    (fun q => if q = "gitee" then some "boom".data else none) (fun _ => none) []
    (by decide) (by decide) (by decide) (by decide)
  refine ⟨?_, h.2.2.1⟩
  show setupRemotes (fun q => if q = "gitee" then some "boom".data else none)
      ([("github", ⟨true, "a".data, "git@github.com:a/p.git".data⟩)] ++
        [("gitee", ⟨true, "a".data, "git@gitee.com:a/p.git".data⟩),
         ("gitlab", ⟨true, "a".data, "git@gitlab.com:a/p.git".data⟩)]) [] = _
  rw [h.1]
  decide

/-! ## C6: resolvedURL never diverges from the template rendering -/

/-- **C6.**  Every platform entry of a configuration produced by the init
flow's merge stores exactly the URL obtained by substituting its account and
the configuration's repository name into its endpoint's template: for every
entry, `url = renderURL endpoint username repository`, with the endpoint the
registry entry for the platform key.  Since the flow's only way of changing
an account or the repository name is re-running this merge (which rebuilds
every URL the same way), the invariant holds immediately after any update. -/
theorem config_url_invariant (repo : List Char) (selected : List String)
    (usernameFor : String → List Char) (k : String) (cfg : PlatformCfg)
    (h : (k, cfg) ∈ (initConfigPure repo selected usernameFor).platforms) :
    ∃ e, findPlatform k = some e ∧ cfg.enabled = true ∧
      cfg.url = renderURL e cfg.username
        (initConfigPure repo selected usernameFor).repository := by
  have hrepo : (initConfigPure repo selected usernameFor).repository = repo := rfl
  rw [hrepo]
  have h' : (k, cfg) ∈ selected.filterMap (fun k' =>
      (findPlatform k').map (fun e =>
        (k', (⟨true, usernameFor k', renderURL e (usernameFor k') repo⟩ : PlatformCfg)))) := h
  rcases List.mem_filterMap.1 h' with ⟨k0, _, heq⟩
  cases hf : findPlatform k0 with
  | none => rw [hf] at heq; cases heq
  | some e =>
      rw [hf] at heq
      simp only [Option.map_some', Option.some.injEq] at heq
      have hpair := Prod.ext_iff.1 heq
      have hk : k0 = k := hpair.1
      have hcfg : cfg = (⟨true, usernameFor k0,
          renderURL e (usernameFor k0) repo⟩ : PlatformCfg) := hpair.2.symm
      subst hk
      exact ⟨e, hf, by rw [hcfg], by rw [hcfg]⟩

/-- Witness for C6 at a concrete merge. -/
theorem config_url_invariant_witness :
    ("gitee", (⟨true, "bob".data, "git@gitee.com:bob/proj.git".data⟩ : PlatformCfg)) ∈
      (initConfigPure "proj".data ["github", "gitee"] (fun _ => "bob".data)).platforms ∧
    ∃ e, findPlatform "gitee" = some e ∧
      (true : Bool) = true ∧
      "git@gitee.com:bob/proj.git".data = renderURL e "bob".data
        (initConfigPure "proj".data ["github", "gitee"] (fun _ => "bob".data)).repository :=
  ⟨by decide,
   config_url_invariant "proj".data ["github", "gitee"] (fun _ => "bob".data)
     "gitee" ⟨true, "bob".data, "git@gitee.com:bob/proj.git".data⟩ (by decide)⟩

/-! ## Lemmas about `setKey` and the discovery passes -/

lemma lookupS_append_self {α : Type} (k : String) (v : α) (m : List (String × α))
    (h : lookupS k m = none) : lookupS k (m ++ [(k, v)]) = some v := by
  induction m with
  | nil => simp [lookupS]
  | cons nw t ih =>
      obtain ⟨n, w⟩ := nw
      by_cases hn : n = k
      · simp [lookupS, hn] at h
      · simp only [List.cons_append, lookupS, if_neg hn] at h ⊢
        exact ih h

lemma mapSet_cons {α : Type} (k : String) (v : α) (n : String) (w : α)
    (t : List (String × α)) :
    ((n, w) :: t).map (fun kv => if kv.1 = k then (k, v) else kv)
      = (if n = k then (k, v) else (n, w))
          :: t.map (fun kv => if kv.1 = k then (k, v) else kv) := rfl

lemma lookupS_mapSet_self {α : Type} (k : String) (v : α) (m : List (String × α))
    (h : (lookupS k m).isSome = true) :
    lookupS k (m.map (fun kv => if kv.1 = k then (k, v) else kv)) = some v := by
  induction m with
  | nil => simp [lookupS] at h
  | cons nw t ih =>
      obtain ⟨n, w⟩ := nw
      rw [mapSet_cons]
      by_cases hn : n = k
      · rw [if_pos hn]
        simp [lookupS]
      · rw [if_neg hn]
        simp only [lookupS, if_neg hn]
        exact ih (by simpa [lookupS, if_neg hn] using h)

lemma lookupS_mapSet_ne {α : Type} (k q : String) (v : α) (m : List (String × α))
    (h : ¬ k = q) :
    lookupS q (m.map (fun kv => if kv.1 = k then (k, v) else kv)) = lookupS q m := by
  induction m with
  | nil => rfl
  | cons nw t ih =>
      obtain ⟨n, w⟩ := nw
      rw [mapSet_cons]
      by_cases hn : n = k
      · rw [if_pos hn]
        subst hn
        simp only [lookupS, if_neg h]
        exact ih
      · rw [if_neg hn]
        by_cases hq : n = q
        · simp only [lookupS, if_pos hq]
        · simp only [lookupS, if_neg hq]
          exact ih

lemma lookupS_setKey_self {α : Type} (k : String) (v : α) (m : List (String × α)) :
    lookupS k (setKey m k v) = some v := by
  unfold setKey
  by_cases hs : (lookupS k m).isSome = true
  · rw [if_pos hs]
    exact lookupS_mapSet_self k v m hs
  · rw [if_neg hs]
    refine lookupS_append_self k v m ?_
    cases hl : lookupS k m with
    | none => rfl
    | some w => exact absurd (by simp [hl]) hs

lemma lookupS_setKey_ne {α : Type} (k q : String) (v : α) (m : List (String × α))
    (h : ¬ k = q) : lookupS q (setKey m k v) = lookupS q m := by
  unfold setKey
  by_cases hs : (lookupS k m).isSome = true
  · rw [if_pos hs]
    exact lookupS_mapSet_ne k q v m h
  · rw [if_neg hs]
    exact lookupS_append_not_mem q k v m h

/-- What the part_000 discovery pass records per endpoint key: the first
binding seen for that key; bindings after an already-populated key are
ignored. -/
lemma v1Pass_lookup (k : String) (rs : List (String × RemoteURLs)) (info : RepoScan) :
    lookupS k (v1Pass rs info).platforms =
      match lookupS k info.platforms with
      | some v => some v
      | none => firstDiscovered k rs := by
  induction rs generalizing info with
  | nil =>
      cases h : lookupS k info.platforms <;> simp [v1Pass, firstDiscovered, h]
  | cons nu rest ih =>
      obtain ⟨name, urls⟩ := nu
      cases hjs : jsOr urls.fetch urls.push with
      | none =>
          simp only [v1Pass, hjs, firstDiscovered]
          exact ih info
      | some url =>
          cases hp : parseRepoInfo url with
          | none =>
              simp only [v1Pass, hjs, hp, firstDiscovered]
              exact ih info
          | some parsed =>
              simp only [v1Pass, hjs, hp, firstDiscovered]
              rw [ih]
              by_cases hpk : parsed.platform = k
              · by_cases hs : (lookupS parsed.platform info.platforms).isSome = true
                · rw [if_pos hs]
                  rw [hpk] at hs
                  rcases Option.isSome_iff_exists.1 hs with ⟨v, hv⟩
                  simp [hv, hpk]
                · rw [if_neg hs]
                  have hnone : lookupS k info.platforms = none := by
                    rw [hpk] at hs
                    cases hl : lookupS k info.platforms with
                    | none => rfl
                    | some w => exact absurd (by simp [hl]) hs
                  rw [hpk]
                  rw [lookupS_append_self k _ info.platforms hnone]
                  simp [hnone, hpk]
              · have hlk : lookupS k (if (lookupS parsed.platform info.platforms).isSome = true
                    then info.platforms
                    else info.platforms ++ [(parsed.platform, ⟨parsed.username, name, url⟩)])
                    = lookupS k info.platforms := by
                  by_cases hs : (lookupS parsed.platform info.platforms).isSome = true
                  · rw [if_pos hs]
                  · rw [if_neg hs]
                    exact lookupS_append_not_mem k parsed.platform _ info.platforms hpk
                rw [hlk]
                simp [hpk]

/-- What the `src/lib/index.js` first pass records per endpoint key: the
**last** binding seen for that key (unconditional overwrite). -/
lemma libPass1_lookup (k : String) (rs : List (String × RemoteURLs)) (info : RepoScan) :
    lookupS k (libPass1 rs info).platforms =
      match lastDiscovered k rs with
      | some v => some v
      | none => lookupS k info.platforms := by
  induction rs generalizing info with
  | nil =>
      simp [libPass1, lastDiscovered]
  | cons nu rest ih =>
      obtain ⟨name, urls⟩ := nu
      cases hjs : jsOr urls.fetch urls.push with
      | none =>
          simp only [libPass1, hjs, lastDiscovered]
          rw [ih]
          cases hl : lastDiscovered k rest <;> simp [hl]
      | some url =>
          cases hp : parseRepoInfo url with
          | none =>
              simp only [libPass1, hjs, hp, lastDiscovered]
              rw [ih]
              cases hl : lastDiscovered k rest <;> simp [hl]
          | some parsed =>
              simp only [libPass1, hjs, hp, lastDiscovered]
              rw [ih]
              cases hl : lastDiscovered k rest with
              | some v => simp [hl]
              | none =>
                  simp only [hl]
                  by_cases hpk : parsed.platform = k
                  · rw [hpk, if_pos rfl]
                    exact lookupS_setKey_self k _ info.platforms
                  · rw [if_neg hpk]
                    exact lookupS_setKey_ne parsed.platform k _ info.platforms hpk

/-- The second pass of the `src/lib/index.js` discovery never changes a key
that is already populated. -/
lemma libPass2_preserve (ks : List String) (remotes : List (String × RemoteURLs))
    (info : RepoScan) (k : String) (h : (lookupS k info.platforms).isSome = true) :
    lookupS k (libPass2 remotes ks info).platforms = lookupS k info.platforms := by
  induction ks generalizing info with
  | nil => rfl
  | cons k0 ks ih =>
      cases hr : lookupS k0 remotes with
      | none => simp only [libPass2, hr]; exact ih info h
      | some urls =>
          cases hi : lookupS k0 info.platforms with
          | some v => simp only [libPass2, hr, hi]; exact ih info h
          | none =>
              have hk0 : ¬ k0 = k := by
                intro he
                rw [he] at hi
                rw [hi] at h
                cases h
              cases hjs : jsOr urls.fetch urls.push with
              | none => simp only [libPass2, hr, hi, hjs]; exact ih info h
              | some url =>
                  cases hp : parseRepoInfo url with
                  | none => simp only [libPass2, hr, hi, hjs, hp]; exact ih info h
                  | some parsed =>
                      simp only [libPass2, hr, hi, hjs, hp]
                      rw [ih _ (by
                        rw [lookupS_setKey_ne k0 k _ info.platforms hk0]
                        exact h)]
                      exact lookupS_setKey_ne k0 k _ info.platforms hk0

/-! ## C3: which binding is recorded per endpoint key -/

/-- **C3 (amended).**  In the part_000 discovery, the record for every
endpoint key is that of the **first** binding whose URL classifies to it
(subsequent bindings for an already-populated key are ignored).  In the
`src/lib/index.js` discovery, however, the main pass overwrites
unconditionally, so whenever any binding classifies to a key the record
kept is that of the **last** such binding. -/
theorem discovery_binding_record (rs : List (String × RemoteURLs)) (dir : List Char)
    (k : String) :
    lookupS k (analyzeRepoV1 rs dir).platforms = firstDiscovered k rs ∧
    ∀ v, lastDiscovered k rs = some v →
      lookupS k (analyzeRepoLib rs dir).platforms = some v := by
  constructor
  · show lookupS k (v1Pass rs ⟨none, []⟩).platforms = firstDiscovered k rs
    rw [v1Pass_lookup]
    rfl
  · intro v hv
    show lookupS k (libPass2 rs (PLATFORMS.map Endpoint.key)
      (libPass1 rs ⟨none, []⟩)).platforms = some v
    have h1 : lookupS k (libPass1 rs ⟨none, []⟩).platforms = some v := by
      rw [libPass1_lookup, hv]
    rw [libPass2_preserve _ _ _ _ (by rw [h1]; rfl)]
    exact h1

/-- The bindings of the C3 counterexample: two remotes, both classifying to
`github`, in this scan order. -/
def c3remotes : List (String × RemoteURLs) :=
  [("r1", ⟨some "git@github.com:alice/proj1.git".data, none⟩),
   ("r2", ⟨some "git@github.com:bob/proj2.git".data, none⟩)]

/-- **C3 counterexample.**  On two bindings that both classify to `github`,
the `src/lib/index.js` discovery records the *second* binding (`r2`/`bob`),
not the first (`r1`/`alice`) — the claim's "first binding seen wins,
subsequent bindings ignored" fails on this variant. -/
theorem discovery_binding_record_cex :
    firstDiscovered "github" c3remotes =
      some ⟨"alice".data, "r1", "git@github.com:alice/proj1.git".data⟩ ∧
    lookupS "github" (analyzeRepoLib c3remotes "d".data).platforms =
      some ⟨"bob".data, "r2", "git@github.com:bob/proj2.git".data⟩ ∧
    (⟨"bob".data, "r2", "git@github.com:bob/proj2.git".data⟩ : DiscoveredP) ≠
      ⟨"alice".data, "r1", "git@github.com:alice/proj1.git".data⟩ := by
  refine ⟨by decide, by decide, by decide⟩

/-- Witness for C3 at the concrete bindings. -/
theorem discovery_binding_record_witness :
    lookupS "github" (analyzeRepoV1 c3remotes "d".data).platforms =
      firstDiscovered "github" c3remotes ∧
    lastDiscovered "github" c3remotes =
      some ⟨"bob".data, "r2", "git@github.com:bob/proj2.git".data⟩ ∧
    lookupS "github" (analyzeRepoLib c3remotes "d".data).platforms =
      some ⟨"bob".data, "r2", "git@github.com:bob/proj2.git".data⟩ :=
  ⟨(discovery_binding_record c3remotes "d".data "github").1, by decide,
   (discovery_binding_record c3remotes "d".data "github").2 _ (by decide)⟩

/-! ## C7: repository-name guess resolution -/

/-- Without an `origin` binding, the part_000 pass resolves the repository
guess to the first successfully parsed repository name (unless already
set). -/
lemma v1Pass_repo_noorigin (rs : List (String × RemoteURLs)) (info : RepoScan)
    (h : lookupS "origin" rs = none) :
    (v1Pass rs info).repo =
      match info.repo with
      | some r => some r
      | none => firstParsedRepo rs := by
  induction rs generalizing info with
  | nil => cases hr : info.repo <;> simp [v1Pass, firstParsedRepo, hr]
  | cons nu rest ih =>
      obtain ⟨name, urls⟩ := nu
      have hname : ¬ name = "origin" := by
        intro he
        simp [lookupS, he] at h
      have hrest : lookupS "origin" rest = none := by
        simpa [lookupS, hname] using h
      cases hjs : jsOr urls.fetch urls.push with
      | none =>
          simp only [v1Pass, hjs, firstParsedRepo]
          exact ih info hrest
      | some url =>
          cases hp : parseRepoInfo url with
          | none =>
              simp only [v1Pass, hjs, hp, firstParsedRepo]
              exact ih info hrest
          | some parsed =>
              simp only [v1Pass, hjs, hp, firstParsedRepo]
              rw [ih _ hrest]
              cases hr : info.repo with
              | none => simp [hr, hname]
              | some r0 => simp [hr, hname]

/-- With distinct binding names, the part_000 pass resolves the repository
guess with `origin` priority: an `origin` binding that parses wins, else
the first parsed repository name, else whatever the accumulator held. -/
lemma v1Pass_repo (rs : List (String × RemoteURLs)) (info : RepoScan)
    (hnd : (rs.map Prod.fst).Nodup) :
    (v1Pass rs info).repo =
      match originRepoOf rs with
      | some r => some r
      | none =>
          match info.repo with
          | some r => some r
          | none => firstParsedRepo rs := by
  induction rs generalizing info with
  | nil => cases hr : info.repo <;> simp [v1Pass, originRepoOf, firstParsedRepo, lookupS, hr]
  | cons nu rest ih =>
      obtain ⟨name, urls⟩ := nu
      simp only [List.map_cons, List.nodup_cons] at hnd
      by_cases hname : name = "origin"
      · subst hname
        have hrest : lookupS "origin" rest = none := by
          rw [lookupS_eq_none_iff]
          exact hnd.1
        cases hjs : jsOr urls.fetch urls.push with
        | none =>
            have horig : originRepoOf (("origin", urls) :: rest) = none := by
              simp [originRepoOf, lookupS, hjs]
            simp only [v1Pass, hjs]
            rw [v1Pass_repo_noorigin rest info hrest]
            rw [horig]
            have hfpr : firstParsedRepo (("origin", urls) :: rest)
                = firstParsedRepo rest := by
              simp [firstParsedRepo, hjs]
            rw [hfpr]
        | some url =>
            cases hp : parseRepoInfo url with
            | none =>
                have horig : originRepoOf (("origin", urls) :: rest) = none := by
                  simp [originRepoOf, lookupS, hjs, hp]
                simp only [v1Pass, hjs, hp]
                rw [v1Pass_repo_noorigin rest info hrest]
                rw [horig]
                have hfpr : firstParsedRepo (("origin", urls) :: rest)
                    = firstParsedRepo rest := by
                  simp [firstParsedRepo, hjs, hp]
                rw [hfpr]
            | some parsed =>
                have horig : originRepoOf (("origin", urls) :: rest)
                    = some parsed.repo := by
                  simp [originRepoOf, lookupS, hjs, hp]
                simp only [v1Pass, hjs, hp]
                rw [v1Pass_repo_noorigin rest _ hrest]
                rw [horig]
                simp
      · cases hjs : jsOr urls.fetch urls.push with
        | none =>
            simp only [v1Pass, hjs]
            rw [ih info hnd.2]
            have horig : originRepoOf ((name, urls) :: rest) = originRepoOf rest := by
              simp [originRepoOf, lookupS, hname]
            have hfpr : firstParsedRepo ((name, urls) :: rest)
                = firstParsedRepo rest := by
              simp [firstParsedRepo, hjs]
            rw [horig, hfpr]
        | some url =>
            have horig : originRepoOf ((name, urls) :: rest) = originRepoOf rest := by
              simp [originRepoOf, lookupS, hname]
            cases hp : parseRepoInfo url with
            | none =>
                simp only [v1Pass, hjs, hp]
                rw [ih info hnd.2]
                have hfpr : firstParsedRepo ((name, urls) :: rest)
                    = firstParsedRepo rest := by
                  simp [firstParsedRepo, hjs, hp]
                rw [horig, hfpr]
            | some parsed =>
                simp only [v1Pass, hjs, hp]
                rw [ih _ hnd.2]
                rw [horig]
                have hfpr : firstParsedRepo ((name, urls) :: rest)
                    = some parsed.repo := by
                  simp [firstParsedRepo, hjs, hp]
                rw [hfpr]
                cases ho : originRepoOf rest with
                | some r => simp [ho]
                | none =>
                    simp only [ho]
                    cases hr : info.repo with
                    | none => simp [hr, hname]
                    | some r0 => simp [hr, hname]

/-- The `src/lib/index.js` first pass keeps the first parsed repository
name, with no `origin` priority. -/
lemma libPass1_repo (rs : List (String × RemoteURLs)) (info : RepoScan) :
    (libPass1 rs info).repo =
      match info.repo with
      | some r => some r
      | none => firstParsedRepo rs := by
  induction rs generalizing info with
  | nil => cases hr : info.repo <;> simp [libPass1, firstParsedRepo, hr]
  | cons nu rest ih =>
      obtain ⟨name, urls⟩ := nu
      cases hjs : jsOr urls.fetch urls.push with
      | none =>
          simp only [libPass1, hjs, firstParsedRepo]
          exact ih info
      | some url =>
          cases hp : parseRepoInfo url with
          | none =>
              simp only [libPass1, hjs, hp, firstParsedRepo]
              exact ih info
          | some parsed =>
              simp only [libPass1, hjs, hp, firstParsedRepo]
              rw [ih]
              cases hr : info.repo with
              | none => simp [hr]
              | some r0 => simp [hr]

/-- The second pass of the `src/lib/index.js` discovery never touches the
repository guess. -/
lemma libPass2_repo (ks : List String) (remotes : List (String × RemoteURLs))
    (info : RepoScan) : (libPass2 remotes ks info).repo = info.repo := by
  induction ks generalizing info with
  | nil => rfl
  | cons k0 ks ih =>
      cases hr : lookupS k0 remotes with
      | none => simp only [libPass2, hr]; exact ih info
      | some urls =>
          cases hi : lookupS k0 info.platforms with
          | some v => simp only [libPass2, hr, hi]; exact ih info
          | none =>
              cases hjs : jsOr urls.fetch urls.push with
              | none => simp only [libPass2, hr, hi, hjs]; exact ih info
              | some url =>
                  cases hp : parseRepoInfo url with
                  | none => simp only [libPass2, hr, hi, hjs, hp]; exact ih info
                  | some parsed => simp only [libPass2, hr, hi, hjs, hp]; exact ih _

/-- **C7 (amended).**  In the part_000 discovery (distinct remote names, as
git guarantees) the repository-name guess follows the claimed priority:
the repository parsed from the binding named `origin` wins, else the first
successfully parsed repository name, else the working copy's directory
name.  The `src/lib/index.js` discovery, however, gives `origin` no
priority: it uses the first successfully parsed repository name, else the
directory name. -/
theorem repo_guess_resolution (rs : List (String × RemoteURLs)) (dir : List Char)
    (hnd : (rs.map Prod.fst).Nodup) :
    (analyzeRepoV1 rs dir).repo =
      (match originRepoOf rs with
       | some r => r
       | none =>
           match firstParsedRepo rs with
           | some r => r
           | none => dir) ∧
    (analyzeRepoLib rs dir).repo =
      (match firstParsedRepo rs with
       | some r => r
       | none => dir) := by
  constructor
  · show ((v1Pass rs ⟨none, []⟩).repo).getD dir = _
    rw [v1Pass_repo rs ⟨none, []⟩ hnd]
    cases ho : originRepoOf rs with
    | some r => simp [ho]
    | none =>
        simp only [ho]
        cases hf : firstParsedRepo rs <;> simp [hf]
  · show ((libPass2 rs (PLATFORMS.map Endpoint.key)
        (libPass1 rs ⟨none, []⟩)).repo).getD dir = _
    rw [libPass2_repo, libPass1_repo]
    cases hf : firstParsedRepo rs <;> simp [hf]

/-- The bindings of the C7 counterexample: a non-`origin` binding scanned
first, then `origin` with a different repository name. -/
def c7remotes : List (String × RemoteURLs) :=
  [("alpha", ⟨some "git@github.com:alice/proj1.git".data, none⟩),
   ("origin", ⟨some "git@github.com:bob/proj2.git".data, none⟩)]

/-- **C7 counterexample.**  With an `origin` binding naming `proj2` and an
earlier binding naming `proj1`, the `src/lib/index.js` discovery guesses
`proj1` — the claimed highest priority of the conventional primary name
(`origin`, which would give `proj2`) does not hold on this variant. -/
theorem repo_guess_resolution_cex :
    originRepoOf c7remotes = some "proj2".data ∧
    (analyzeRepoLib c7remotes "dirname".data).repo = "proj1".data ∧
    ("proj1".data : List Char) ≠ "proj2".data := by
  refine ⟨by decide, by decide, by decide⟩

/-- Witness for C7 at the concrete bindings (where the part_000 variant
does give `origin` priority). -/
theorem repo_guess_resolution_witness :
    (analyzeRepoV1 c7remotes "dirname".data).repo = "proj2".data ∧
    (analyzeRepoLib c7remotes "dirname".data).repo = "proj1".data := by
  have h := repo_guess_resolution c7remotes "dirname".data (by decide)
  constructor
  · rw [h.1]; decide
  · rw [h.2]; decide

/-! ## Lemmas for the URL round trip (C4) -/

lemma mem_takeWhile_pred {α : Type} (p : α → Bool) (l : List α) (a : α)
    (h : a ∈ l.takeWhile p) : p a = true := by
  induction l with
  | nil => cases h
  | cons b t ih =>
      by_cases hb : p b = true
      · rw [List.takeWhile_cons, if_pos hb] at h
        rcases List.mem_cons.mp h with h1 | h1
        · rw [h1]; exact hb
        · exact ih h1
      · rw [List.takeWhile_cons, if_neg hb] at h
        cases h

lemma matchTail_groups (rest : List Char) (u r : List Char)
    (h : matchTail rest = some (u, r)) :
    u ≠ [] ∧ (∀ ch ∈ u, (ch == '/') = false) ∧ r ≠ [] ∧
    (∀ ch ∈ r, (!(ch == '/') && !(ch == '.')) = true) := by
  cases rest with
  | nil => exact absurd h (by simp [matchTail])
  | cons c rest1 =>
      simp only [matchTail] at h
      by_cases hsep : (c == ':' || c == '/') = true
      · rw [if_pos hsep] at h
        cases hd : rest1.dropWhile (fun d => !(d == '/')) with
        | nil => rw [hd] at h; exact absurd h (by simp)
        | cons c2 rest3 =>
            rw [hd] at h
            dsimp only at h
            by_cases hc2 : (c2 == '/') = true
            · rw [if_pos hc2] at h
              by_cases hne : ((rest1.takeWhile (fun d => !(d == '/'))).isEmpty
                  || (rest3.takeWhile (fun d => !(d == '/') && !(d == '.'))).isEmpty)
                  = true
              · rw [if_pos hne] at h; exact absurd h (by simp)
              · rw [if_neg hne] at h
                have hinj := Prod.ext_iff.1 (Option.some.inj h)
                have h1 : rest1.takeWhile (fun d => !(d == '/')) = u := hinj.1
                have h2 : rest3.takeWhile (fun d => !(d == '/') && !(d == '.')) = r :=
                  hinj.2
                simp only [Bool.or_eq_true, not_or] at hne
                refine ⟨?_, ?_, ?_, ?_⟩
                · rw [← h1]
                  intro he
                  exact hne.1 (by simp [he])
                · intro ch hch
                  rw [← h1] at hch
                  have := mem_takeWhile_pred (fun d => !(d == '/')) rest1 ch hch
                  simpa using this
                · rw [← h2]
                  intro he
                  exact hne.2 (by simp [he])
                · intro ch hch
                  rw [← h2] at hch
                  exact mem_takeWhile_pred
                    (fun d => !(d == '/') && !(d == '.')) rest3 ch hch
            · rw [if_neg hc2] at h; exact absurd h (by simp)
      · rw [if_neg hsep] at h; exact absurd h (by simp)

lemma tryMatchAt_groups (host s : List Char) (u r : List Char)
    (h : tryMatchAt host s = some (u, r)) :
    u ≠ [] ∧ (∀ ch ∈ u, (ch == '/') = false) ∧ r ≠ [] ∧
    (∀ ch ∈ r, (!(ch == '/') && !(ch == '.')) = true) := by
  unfold tryMatchAt at h
  split at h
  · exact absurd h (by simp)
  · exact matchTail_groups _ u r h

lemma searchPattern_groups (host s : List Char) (u r : List Char)
    (h : searchPattern host s = some (u, r)) :
    u ≠ [] ∧ (∀ ch ∈ u, (ch == '/') = false) ∧ r ≠ [] ∧
    (∀ ch ∈ r, (!(ch == '/') && !(ch == '.')) = true) := by
  induction s with
  | nil => exact tryMatchAt_groups host [] u r h
  | cons c rest ih =>
      rw [searchPattern] at h
      cases ht : tryMatchAt host (c :: rest) with
      | some res =>
          rw [ht] at h
          have : res = (u, r) := Option.some.inj h
          exact tryMatchAt_groups host (c :: rest) u r (by rw [ht, this])
      | none =>
          rw [ht] at h
          exact ih h

lemma leadsWith_split (pat : List Char) (a : List Char) (c : Char) (t : List Char)
    (h : leadsWith pat (a ++ c :: t) = true) :
    leadsWith pat a = true ∨ c ∈ pat := by
  induction a generalizing pat with
  | nil =>
      cases pat with
      | nil => exact Or.inl rfl
      | cons p ps =>
          simp only [List.nil_append, leadsWith, Bool.and_eq_true] at h
          exact Or.inr (by simp [← beq_iff_eq.1 h.1])
  | cons x a ih =>
      cases pat with
      | nil => exact Or.inl rfl
      | cons p ps =>
          simp only [List.cons_append, leadsWith, Bool.and_eq_true] at h
          rcases ih ps h.2 with h1 | h1
          · exact Or.inl (by simp [leadsWith, h.1, h1])
          · exact Or.inr (List.mem_cons_of_mem p h1)

lemma replaceFirst_cons_of_guard_false (pat rep : List Char) (c : Char) (t : List Char)
    (h : leadsWith pat (c :: t) = false) :
    replaceFirst pat rep (c :: t) = c :: replaceFirst pat rep t := by
  simp [replaceFirst, h]

lemma replaceFirst_append_no_occ (pat rep u t' : List Char)
    (hocc : occursIn pat u = false) (hpat : ∀ ch ∈ pat, (ch == '/') = false) :
    replaceFirst pat rep (u ++ '/' :: t') = u ++ replaceFirst pat rep ('/' :: t') := by
  induction u with
  | nil => rfl
  | cons ch u' ih =>
      simp only [occursIn, Bool.or_eq_false_iff] at hocc
      have hguard : leadsWith pat (ch :: (u' ++ '/' :: t')) = false := by
        by_contra hg
        have hg' : leadsWith pat ((ch :: u') ++ '/' :: t') = true := by
          simpa using Bool.of_not_eq_false hg
        rcases leadsWith_split pat (ch :: u') '/' t' hg' with h1 | h1
        · rw [hocc.1] at h1; cases h1
        · have := hpat '/' h1
          simp at this
      rw [List.cons_append, replaceFirst_cons_of_guard_false pat rep ch _ hguard,
        ih hocc.2]
      rfl

lemma afterHost_self_append (host rest : List Char)
    (hlow : ∀ ch ∈ host, (ch == ch.toLower) = true) :
    afterHost host (host ++ rest) = some rest := by
  induction host with
  | nil => rfl
  | cons a as ih =>
      have ha : (a == a.toLower) = true := hlow a (by simp)
      simp only [List.cons_append, afterHost, if_pos ha]
      exact ih (fun ch hch => hlow ch (by simp [hch]))

lemma takeWhile_append_stop (p : Char → Bool) (a : List Char) (c : Char)
    (b : List Char) (ha : ∀ ch ∈ a, p ch = true) (hc : p c = false) :
    (a ++ c :: b).takeWhile p = a := by
  induction a with
  | nil => simp [List.takeWhile_cons, hc]
  | cons x a ih =>
      have hx : p x = true := ha x (by simp)
      simp only [List.cons_append, List.takeWhile_cons, if_pos hx]
      rw [ih (fun ch hch => ha ch (by simp [hch]))]

lemma dropWhile_append_stop (p : Char → Bool) (a : List Char) (c : Char)
    (b : List Char) (ha : ∀ ch ∈ a, p ch = true) (hc : p c = false) :
    (a ++ c :: b).dropWhile p = c :: b := by
  induction a with
  | nil => simp [List.dropWhile_cons, hc]
  | cons x a ih =>
      have hx : p x = true := ha x (by simp)
      simp only [List.cons_append, List.dropWhile_cons, hx, if_pos]
      exact ih (fun ch hch => ha ch (by simp [hch]))

/-- The regex tail `[:/]([^/]+)/([^/.]+)` on a rendered URL tail
`:<u>/<r>.git` extracts exactly `u` and `r`. -/
lemma matchTail_rendered (u r t : List Char) (hu : u ≠ [])
    (hu2 : ∀ ch ∈ u, (ch == '/') = false) (hr : r ≠ [])
    (hr2 : ∀ ch ∈ r, (!(ch == '/') && !(ch == '.')) = true) :
    matchTail (':' :: (u ++ '/' :: (r ++ '.' :: t))) = some (u, r) := by
  have hu2' : ∀ ch ∈ u, (fun d => !(d == '/')) ch = true := by
    intro ch hch
    simp [hu2 ch hch]
  have htw : (u ++ '/' :: (r ++ '.' :: t)).takeWhile (fun d => !(d == '/')) = u :=
    takeWhile_append_stop _ u '/' _ hu2' (by simp)
  have hdw : (u ++ '/' :: (r ++ '.' :: t)).dropWhile (fun d => !(d == '/'))
      = '/' :: (r ++ '.' :: t) :=
    dropWhile_append_stop _ u '/' _ hu2' (by simp)
  have htw2 : (r ++ '.' :: t).takeWhile (fun d => !(d == '/') && !(d == '.')) = r :=
    takeWhile_append_stop _ r '.' _ hr2 (by simp)
  simp only [matchTail, hdw, htw, htw2]
  rw [if_pos (by simp)]
  rw [if_pos (by simp)]
  rw [if_neg ?hne]
  case hne =>
    simp only [Bool.or_eq_true, not_or]
    constructor
    · simpa using hu
    · simpa using hr

lemma searchPattern_cons_none (host : List Char) (c : Char) (t : List Char)
    (h : tryMatchAt host (c :: t) = none) :
    searchPattern host (c :: t) = searchPattern host t := by
  simp [searchPattern, h]

lemma searchPattern_cons_some (host : List Char) (c : Char) (t : List Char)
    (res : List Char × List Char) (h : tryMatchAt host (c :: t) = some res) :
    searchPattern host (c :: t) = some res := by
  simp [searchPattern, h]

lemma tryMatchAt_git0 (c4 : Char) (h5 s : List Char) (hc4 : (c4 == '@') = false) :
    tryMatchAt ('g' :: 'i' :: 't' :: c4 :: h5) ('g' :: 'i' :: 't' :: '@' :: s)
      = none := by
  have h1 : ('g' == Char.toLower 'g') = true := by decide
  have h2 : ('i' == Char.toLower 'i') = true := by decide
  have h3 : ('t' == Char.toLower 't') = true := by decide
  have h4 : Char.toLower '@' = '@' := by decide
  simp [tryMatchAt, afterHost, h1, h2, h3, h4, hc4]

lemma tryMatchAt_git1 (host' s : List Char) :
    tryMatchAt ('g' :: host') ('i' :: s) = none := by
  have h1 : ('g' == Char.toLower 'i') = false := by decide
  simp [tryMatchAt, afterHost, h1]

lemma tryMatchAt_git2 (host' s : List Char) :
    tryMatchAt ('g' :: host') ('t' :: s) = none := by
  have h1 : ('g' == Char.toLower 't') = false := by decide
  simp [tryMatchAt, afterHost, h1]

lemma tryMatchAt_git3 (host' s : List Char) :
    tryMatchAt ('g' :: host') ('@' :: s) = none := by
  have h1 : ('g' == Char.toLower '@') = false := by decide
  simp [tryMatchAt, afterHost, h1]

/-- Scanning a rendered URL `git@<host>:<tail>`: the first match of the
platform pattern is at the host occurrence after `git@`, so the match is
whatever the regex tail yields there.  The hosts of all registry entries
start with `git` followed by a character other than `@`, and are
lowercase. -/
lemma searchPattern_rendered (c4 : Char) (h5 tail : List Char)
    (res : List Char × List Char) (hc4 : (c4 == '@') = false)
    (hlow : ∀ ch ∈ ('g' :: 'i' :: 't' :: c4 :: h5), (ch == ch.toLower) = true)
    (hsome : matchTail (':' :: tail) = some res) :
    searchPattern ('g' :: 'i' :: 't' :: c4 :: h5)
      ('g' :: 'i' :: 't' :: '@' :: (('g' :: 'i' :: 't' :: c4 :: h5) ++ ':' :: tail))
      = some res := by
  rw [searchPattern_cons_none _ _ _ (tryMatchAt_git0 c4 h5 _ hc4)]
  rw [searchPattern_cons_none _ _ _ (tryMatchAt_git1 _ _)]
  rw [searchPattern_cons_none _ _ _ (tryMatchAt_git2 _ _)]
  rw [searchPattern_cons_none _ _ _ (tryMatchAt_git3 _ _)]
  have htry : tryMatchAt ('g' :: 'i' :: 't' :: c4 :: h5)
      (('g' :: 'i' :: 't' :: c4 :: h5) ++ ':' :: tail) = some res := by
    unfold tryMatchAt
    rw [afterHost_self_append _ _ hlow]
    exact hsome
  cases hform : ('g' :: 'i' :: 't' :: c4 :: h5) ++ ':' :: tail with
  | nil => cases hform
  | cons c0 t0 =>
      rw [hform] at htry
      exact searchPattern_cons_some _ _ _ _ htry

lemma replaceFirst_append_of_head_notin (p0 : Char) (pt rep a t : List Char)
    (h : ∀ ch ∈ a, (p0 == ch) = false) :
    replaceFirst (p0 :: pt) rep (a ++ t) = a ++ replaceFirst (p0 :: pt) rep t := by
  induction a with
  | nil => rfl
  | cons x a' ih =>
      have hx : (p0 == x) = false := h x (by simp)
      have hguard : leadsWith (p0 :: pt) (x :: (a' ++ t)) = false := by
        simp [leadsWith, hx]
      rw [List.cons_append, replaceFirst_cons_of_guard_false _ _ _ _ hguard,
        ih (fun ch hch => h ch (by simp [hch]))]
      rfl

/-- `template.replace("{username}", u).replace("{repo}", r)` on a registry
template `pre ++ "{username}/{repo}.git"` whose prefix contains no brace:
provided the account does not itself contain the literal `{repo}`, the
result is the expected `pre ++ u ++ "/" ++ r ++ ".git"`. -/
lemma renderURL_form (e : Endpoint) (pre : List Char) (u r : List Char)
    (hocc : occursIn "{repo}".data u = false)
    (hstep1 : replaceFirst "{username}".data u e.template
        = pre ++ (u ++ '/' :: "{repo}.git".data))
    (hpre : ∀ ch ∈ pre, ('{' == ch) = false) :
    renderURL e u r = pre ++ (u ++ '/' :: (r ++ ".git".data)) := by
  unfold renderURL
  rw [hstep1]
  rw [replaceFirst_append_of_head_notin '{' _ r pre _ hpre]
  rw [replaceFirst_append_no_occ "{repo}".data r u _ hocc (by decide)]
  have h3 : replaceFirst "{repo}".data r ('/' :: "{repo}.git".data)
      = '/' :: (r ++ ".git".data) := by
    rw [replaceFirst_cons_of_guard_false _ _ _ _ (by decide)]
    rfl
  rw [h3]

lemma roundtrip_github (u r : List Char) (hu : u ≠ [])
    (hu2 : ∀ ch ∈ u, (ch == '/') = false) (hr : r ≠ [])
    (hr2 : ∀ ch ∈ r, (!(ch == '/') && !(ch == '.')) = true)
    (hocc : occursIn "{repo}".data u = false) :
    searchPattern githubE.host (renderURL githubE u r) = some (u, r) := by
  rw [renderURL_form githubE "git@github.com:".data u r hocc rfl (by decide)]
  exact searchPattern_rendered 'h' "ub.com".data (u ++ '/' :: (r ++ ".git".data))
    (u, r) (by decide) (by decide)
    (matchTail_rendered u r "git".data hu hu2 hr hr2)

lemma roundtrip_gitee (u r : List Char) (hu : u ≠ [])
    (hu2 : ∀ ch ∈ u, (ch == '/') = false) (hr : r ≠ [])
    (hr2 : ∀ ch ∈ r, (!(ch == '/') && !(ch == '.')) = true)
    (hocc : occursIn "{repo}".data u = false) :
    searchPattern giteeE.host (renderURL giteeE u r) = some (u, r) := by
  rw [renderURL_form giteeE "git@gitee.com:".data u r hocc rfl (by decide)]
  exact searchPattern_rendered 'e' "e.com".data (u ++ '/' :: (r ++ ".git".data))
    (u, r) (by decide) (by decide)
    (matchTail_rendered u r "git".data hu hu2 hr hr2)

lemma roundtrip_gitlab (u r : List Char) (hu : u ≠ [])
    (hu2 : ∀ ch ∈ u, (ch == '/') = false) (hr : r ≠ [])
    (hr2 : ∀ ch ∈ r, (!(ch == '/') && !(ch == '.')) = true)
    (hocc : occursIn "{repo}".data u = false) :
    searchPattern gitlabE.host (renderURL gitlabE u r) = some (u, r) := by
  rw [renderURL_form gitlabE "git@gitlab.com:".data u r hocc rfl (by decide)]
  exact searchPattern_rendered 'l' "ab.com".data (u ++ '/' :: (r ++ ".git".data))
    (u, r) (by decide) (by decide)
    (matchTail_rendered u r "git".data hu hu2 hr hr2)

lemma roundtrip_gitcode (u r : List Char) (hu : u ≠ [])
    (hu2 : ∀ ch ∈ u, (ch == '/') = false) (hr : r ≠ [])
    (hr2 : ∀ ch ∈ r, (!(ch == '/') && !(ch == '.')) = true)
    (hocc : occursIn "{repo}".data u = false) :
    searchPattern gitcodeE.host (renderURL gitcodeE u r) = some (u, r) := by
  rw [renderURL_form gitcodeE "git@gitcode.com:".data u r hocc rfl (by decide)]
  exact searchPattern_rendered 'c' "ode.com".data (u ++ '/' :: (r ++ ".git".data))
    (u, r) (by decide) (by decide)
    (matchTail_rendered u r "git".data hu hu2 hr hr2)

/-! ## C4: match-then-render round trip -/

/-- **C4 (amended).**  For every URL matched by a registry pattern,
rendering the matched endpoint's template with the extracted account and
repository yields a URL that the same endpoint's pattern recognizes again
with the same account and repository — *provided* the extracted account
does not contain the literal substring `{repo}` (otherwise the second
`.replace` of the renderer substitutes inside the account, see the
counterexample) and neither account nor repository contains `$`
(JavaScript's `replace` would otherwise interpret `$`-escapes in the
replacement; `replaceFirst` models the literal behaviour, so the theorem
restricts itself to the `$`-free domain where the two agree). -/
theorem matchEndpoint_renderURL_roundtrip (url : List Char) (i : ParsedRepoInfo)
    (e : Endpoint) (hp : parseRepoInfo url = some i)
    (he : findPlatform i.platform = some e)
    (hocc : occursIn "{repo}".data i.username = false)
    (hd1 : '$' ∉ i.username) (hd2 : '$' ∉ i.repo) :
    searchPattern e.host (renderURL e i.username i.repo)
      = some (i.username, i.repo) := by
  unfold parseRepoInfo parseRepoInfoAux PLATFORMS at hp
  dsimp only at hp
  cases h1 : searchPattern githubE.host url with
  | some res =>
      obtain ⟨u, r⟩ := res
      rw [h1] at hp
      dsimp only at hp
      have hi : i = ⟨githubE.key, u, r, url⟩ := (Option.some.inj hp).symm
      have hg := searchPattern_groups githubE.host url u r h1
      have hee : e = githubE := by
        rw [hi] at he
        exact (Option.some.inj he).symm
      rw [hee, hi]
      exact roundtrip_github u r hg.1 hg.2.1 hg.2.2.1 hg.2.2.2 (by rw [hi] at hocc; exact hocc)
  | none =>
      rw [h1] at hp
      dsimp only at hp
      unfold parseRepoInfoAux at hp
      cases h2 : searchPattern giteeE.host url with
      | some res =>
          obtain ⟨u, r⟩ := res
          rw [h2] at hp
          dsimp only at hp
          have hi : i = ⟨giteeE.key, u, r, url⟩ := (Option.some.inj hp).symm
          have hg := searchPattern_groups giteeE.host url u r h2
          have hee : e = giteeE := by
            rw [hi] at he
            exact (Option.some.inj he).symm
          rw [hee, hi]
          exact roundtrip_gitee u r hg.1 hg.2.1 hg.2.2.1 hg.2.2.2
            (by rw [hi] at hocc; exact hocc)
      | none =>
          rw [h2] at hp
          dsimp only at hp
          unfold parseRepoInfoAux at hp
          cases h3 : searchPattern gitlabE.host url with
          | some res =>
              obtain ⟨u, r⟩ := res
              rw [h3] at hp
              dsimp only at hp
              have hi : i = ⟨gitlabE.key, u, r, url⟩ := (Option.some.inj hp).symm
              have hg := searchPattern_groups gitlabE.host url u r h3
              have hee : e = gitlabE := by
                rw [hi] at he
                exact (Option.some.inj he).symm
              rw [hee, hi]
              exact roundtrip_gitlab u r hg.1 hg.2.1 hg.2.2.1 hg.2.2.2
                (by rw [hi] at hocc; exact hocc)
          | none =>
              rw [h3] at hp
              dsimp only at hp
              unfold parseRepoInfoAux at hp
              cases h4 : searchPattern gitcodeE.host url with
              | some res =>
                  obtain ⟨u, r⟩ := res
                  rw [h4] at hp
                  dsimp only at hp
                  have hi : i = ⟨gitcodeE.key, u, r, url⟩ := (Option.some.inj hp).symm
                  have hg := searchPattern_groups gitcodeE.host url u r h4
                  have hee : e = gitcodeE := by
                    rw [hi] at he
                    exact (Option.some.inj he).symm
                  rw [hee, hi]
                  exact roundtrip_gitcode u r hg.1 hg.2.1 hg.2.2.1 hg.2.2.2
                    (by rw [hi] at hocc; exact hocc)
              | none =>
                  rw [h4] at hp
                  exact absurd hp (by simp [parseRepoInfoAux])

/-- **C4 counterexample.**  The URL `github.com:x{repo}/name` matches the
github pattern with account `x{repo}` and repository `name`; rendering the
github template with these values yields `git@github.com:xname/{repo}.git`
(the `{repo}` inside the account is substituted first), which the github
pattern re-matches as account `xname`, repository `{repo}` — not the
original pair.  So the round trip fails as universally claimed. -/
theorem matchEndpoint_renderURL_roundtrip_cex :
    parseRepoInfo "github.com:x{repo}/name".data =
      some ⟨"github", "x{repo}".data, "name".data, "github.com:x{repo}/name".data⟩ ∧
    findPlatform "github" = some githubE ∧
    renderURL githubE "x{repo}".data "name".data
      = "git@github.com:xname/{repo}.git".data ∧
    searchPattern githubE.host (renderURL githubE "x{repo}".data "name".data)
      = some ("xname".data, "{repo}".data) ∧
    ¬ searchPattern githubE.host (renderURL githubE "x{repo}".data "name".data)
      = some ("x{repo}".data, "name".data) := by
  refine ⟨by decide, by decide, by decide, by decide, by decide⟩

/-- Witness for C4 at a concrete clean URL. -/
theorem matchEndpoint_renderURL_roundtrip_witness :
    parseRepoInfo "https://gitee.com/bob/proj.git".data =
      some ⟨"gitee", "bob".data, "proj".data, "https://gitee.com/bob/proj.git".data⟩ ∧
    searchPattern giteeE.host (renderURL giteeE "bob".data "proj".data)
      = some ("bob".data, "proj".data) := by
  constructor
  · decide
  · exact matchEndpoint_renderURL_roundtrip "https://gitee.com/bob/proj.git".data
      ⟨"gitee", "bob".data, "proj".data, "https://gitee.com/bob/proj.git".data⟩
      giteeE (by decide) (by decide) (by decide) (by decide) (by decide)

end MGit
